import Mathlib

/-!
Verification of the transliteration engine in `src/transliterate.rs`.

The Rust source is shallowly embedded: strings become `List Char`, byte
buffers become `List Nat` (each element a `u8` value), fallible code returns
`Except Error` and the potentially non-terminating scanning loop is given
explicit fuel (`Option` result, `none` meaning the fuel ran out, which models
divergence of the original loop).
-/

set_option maxHeartbeats 1000000

namespace Translit

/-- Embedding of `enum Direction` from `src/transliterate.rs`. -/
inductive Direction where
  | LatinToCyrillic
  | CyrillicToLatin
deriving DecidableEq, Repr

/-- Embedding of `enum Error` from `src/transliterate.rs`.  The payloads of
`IoError`, `UTFError` and `FromUTFError` carry no information used by the
algorithm, so they are dropped. -/
inductive Error where
  | EmptyDigest
  | BufferOverflow
  | IoError
  | UTFError
  | FromUTFError
deriving DecidableEq, Repr

/-- Embedding of `struct DigraphException` from the `charmaps` module:
parallel lists of source-alphabet alternatives and their override renderings,
plus the lowercase byte-level marker substrings. -/
structure DigraphException where
  latin : List (List Char)
  cyrillic : List (List Char)
  exceptions : List (List Nat)
deriving DecidableEq, Repr

/-- The four parallel mapping tables and the exception dictionary supplied by
the `charmaps` module (an external data collaborator of the core). -/
structure Charmaps where
  latinDirty : List (List Char)
  cyrillicDirty : List (List Char)
  cyrillicClean : List (List Char)
  latinClean : List (List Char)
  digraphExceptions : List DigraphException
deriving DecidableEq, Repr

/-- Model of `slice::starts_with` on characters. -/
def isPre : List Char → List Char → Bool
  | [], _ => true
  | _ :: _, [] => false
  | a :: as, b :: bs => a == b && isPre as bs

/-- Model of `slice::starts_with` on bytes (used by the substring search). -/
def isPreN : List Nat → List Nat → Bool
  | [], _ => true
  | _ :: _, [] => false
  | a :: as, b :: bs => a == b && isPreN as bs

/-- Model of `bmh::find(haystack, needle).is_some()`: does `pat` occur as a
contiguous subsequence of `hay`? -/
def isSub (pat : List Nat) : List Nat → Bool
  | [] => pat.isEmpty
  | b :: t => isPreN pat (b :: t) || isSub pat t

/-- UTF-8 encoding of one character, as produced by Rust's
`char::encode_utf8`.  Division and remainder express the bit-level
shift/mask operations of the standard encoder. -/
def charUtf8 (c : Char) : List Nat :=
  if c.toNat < 0x80 then [c.toNat]
  else if c.toNat < 0x800 then [0xC0 + c.toNat / 64, 0x80 + c.toNat % 64]
  else if c.toNat < 0x10000 then
    [0xE0 + c.toNat / 4096, 0x80 + c.toNat / 64 % 64, 0x80 + c.toNat % 64]
  else
    [0xF0 + c.toNat / 262144, 0x80 + c.toNat / 4096 % 64, 0x80 + c.toNat / 64 % 64,
      0x80 + c.toNat % 64]

/-- UTF-8 byte length of a character sequence (`str::len` on the
corresponding Rust string slice). -/
def byteLen (w : List Char) : Nat := (w.flatMap charUtf8).length

/-- Decode one UTF-8 scalar from the front of a byte list, rejecting
malformed leading bytes, bad continuations, overlong forms, surrogates and
out-of-range values, as `String::from_utf8` does. -/
def utf8DecodeOne : List Nat → Option (Char × List Nat)
  | [] => none
  | b :: rest =>
    if b < 0x80 then some (Char.ofNat b, rest)
    else if b < 0xC0 then none
    else if b < 0xE0 then
      match rest with
      | b1 :: r =>
        if 0x80 ≤ b1 ∧ b1 < 0xC0 then
          if 0x80 ≤ (b - 0xC0) * 64 + (b1 - 0x80) then
            some (Char.ofNat ((b - 0xC0) * 64 + (b1 - 0x80)), r)
          else none
        else none
      | [] => none
    else if b < 0xF0 then
      match rest with
      | b1 :: b2 :: r =>
        if (0x80 ≤ b1 ∧ b1 < 0xC0) ∧ (0x80 ≤ b2 ∧ b2 < 0xC0) then
          if 0x800 ≤ (b - 0xE0) * 4096 + (b1 - 0x80) * 64 + (b2 - 0x80) ∧
              ¬(0xD800 ≤ (b - 0xE0) * 4096 + (b1 - 0x80) * 64 + (b2 - 0x80) ∧
                (b - 0xE0) * 4096 + (b1 - 0x80) * 64 + (b2 - 0x80) < 0xE000) then
            some (Char.ofNat ((b - 0xE0) * 4096 + (b1 - 0x80) * 64 + (b2 - 0x80)), r)
          else none
        else none
      | _ => none
    else if b < 0xF8 then
      match rest with
      | b1 :: b2 :: b3 :: r =>
        if (0x80 ≤ b1 ∧ b1 < 0xC0) ∧ (0x80 ≤ b2 ∧ b2 < 0xC0) ∧ (0x80 ≤ b3 ∧ b3 < 0xC0) then
          if 0x10000 ≤ (b - 0xF0) * 262144 + (b1 - 0x80) * 4096 + (b2 - 0x80) * 64 + (b3 - 0x80) ∧
              (b - 0xF0) * 262144 + (b1 - 0x80) * 4096 + (b2 - 0x80) * 64 + (b3 - 0x80) < 0x110000 then
            some (Char.ofNat ((b - 0xF0) * 262144 + (b1 - 0x80) * 4096 + (b2 - 0x80) * 64 + (b3 - 0x80)), r)
          else none
        else none
      | _ => none
    else none

/-- Decode a whole byte list (fuel-indexed; each step consumes at least one
byte, so fuel equal to the length always suffices). -/
def utf8DecodeAux : Nat → List Nat → Option (List Char)
  | _, [] => some []
  | 0, _ :: _ => none
  | fuel + 1, b :: l =>
    match utf8DecodeOne (b :: l) with
    | some (c, rest) => (utf8DecodeAux fuel rest).map (fun cs => c :: cs)
    | none => none

/-- Model of `String::from_utf8` succeeding: total decode of a byte list. -/
def utf8Decode (l : List Nat) : Option (List Char) := utf8DecodeAux l.length l

/-- Embedding of `Transliterate::chars_to_utf8`: encode `input` into a
buffer with `room` bytes left, failing with `BufferOverflow` exactly when the
running cursor would pass the end of the buffer.  The returned list is the
byte content written. -/
def chars_to_utf8 : List Char → Nat → Except Error (List Nat)
  | [], _ => .ok []
  | c :: cs, room =>
    let e := charUtf8 c
    if room < e.length then .error .BufferOverflow
    else (chars_to_utf8 cs (room - e.length)).map (fun bs => e ++ bs)

/-- Model of Rust's `char::to_lowercase` restricted to the repertoire the
mapping tables use (basic Latin, the Serbian Latin letters with diacritics,
and the Serbian Cyrillic block); every other character lowers to itself.
`char::to_lowercase` returns an iterator of characters, hence the list. -/
def toLower (c : Char) : List Char :=
  if 65 ≤ c.toNat ∧ c.toNat ≤ 90 then [Char.ofNat (c.toNat + 32)]
  else if c.toNat = 0x110 ∨ c.toNat = 0x17D ∨ c.toNat = 0x106 ∨ c.toNat = 0x10C ∨
      c.toNat = 0x160 then
    [Char.ofNat (c.toNat + 1)]
  else if 0x410 ≤ c.toNat ∧ c.toNat ≤ 0x42F then [Char.ofNat (c.toNat + 0x20)]
  else if 0x400 ≤ c.toNat ∧ c.toNat ≤ 0x40F then [Char.ofNat (c.toNat + 0x50)]
  else [c]

/-- Embedding of the lowercase-buffer construction inside
`Transliterate::digraph_exception`: a zero-filled buffer of `word.len() * 4`
bytes receives the UTF-8 encoding of every lowercased character in turn
(the nested `for` loops flatten to one `chars_to_utf8` call on the
concatenated lowercase characters); the zero padding after the written
cursor is retained, exactly as in the source, because the buffer is never
truncated before the substring search. -/
def lowercaseBuffer (word : List Char) : Except Error (List Nat) :=
  (chars_to_utf8 (word.flatMap toLower) (word.length * 4)).map
    (fun bs => bs ++ List.replicate (word.length * 4 - bs.length) 0)

/-- Inner loop of `Transliterate::digraph_exception` over the alternatives
`0 .. exception.latin.len()` of one exception entry, with the parallel
`cyrillic` list walked alongside (`cyrs.headD []` models the `cyrillic[i]`
indexing). -/
def digraphAltAux (word character : List Char) (markers : List (List Nat)) :
    List (List Char) → List (List Char) → Except Error (Option (List Char))
  | [], _ => .ok none
  | lat :: lats, cyrs =>
    if lat = character then
      match lowercaseBuffer word with
      | .error e => .error e
      | .ok buf =>
        if markers.any (fun m => isSub m buf) then .ok (some (cyrs.headD []))
        else digraphAltAux word character markers lats cyrs.tail
    else digraphAltAux word character markers lats cyrs.tail

/-- Embedding of `Transliterate::digraph_exception`: walk the exception
entries in declaration order; within an entry walk the alternatives in
order; on the first alternative equal to the matched source sequence whose
entry has a marker occurring in the lowercased word, return that
alternative's override. -/
def digraph_exception (excs : List DigraphException) (word character : List Char) :
    Except Error (Option (List Char)) :=
  match excs with
  | [] => .ok none
  | exc :: rest =>
    match digraphAltAux word character exc.exceptions exc.latin exc.cyrillic with
    | .error e => .error e
    | .ok (some ov) => .ok (some ov)
    | .ok none => digraph_exception rest word character

/-- The source table scanned for matches in the given direction
(`LATIN_DIRTY` or `CYRILLIC_CLEAN`). -/
def srcTable (cm : Charmaps) : Direction → List (List Char)
  | .LatinToCyrillic => cm.latinDirty
  | .CyrillicToLatin => cm.cyrillicClean

/-- The parallel target table emitted from in the given direction
(`CYRILLIC_DIRTY` or `LATIN_CLEAN`). -/
def tgtTable (cm : Charmaps) : Direction → List (List Char)
  | .LatinToCyrillic => cm.cyrillicDirty
  | .CyrillicToLatin => cm.latinClean

/-- The direction guard around the disambiguator in
`Transliterate::process_word`: the Rust code consults `digraph_exception`
only under `if let Direction::LatinToCyrillic = self.direction`. -/
def excDispatch (cm : Charmaps) (dir : Direction) (word c : List Char) :
    Except Error (Option (List Char)) :=
  match dir with
  | .LatinToCyrillic => digraph_exception cm.digraphExceptions word c
  | .CyrillicToLatin => .ok none

/-- Embedding of `table.iter().enumerate().rev()` followed by the first
`starts_with` hit: try index `n - 1`, then `n - 2`, ... down to `0`,
returning the first (that is, highest) index whose entry is a prefix of the
remaining characters, together with that entry. -/
def findMatchRevFrom (entries : List (List Char)) (rest : List Char) : Nat → Option (Nat × List Char)
  | 0 => none
  | i + 1 =>
    let c := entries.getD i []
    if isPre c rest then some (i, c) else findMatchRevFrom entries rest i

/-- Reverse-order candidate search over a whole table. -/
def findMatchRev (entries : List (List Char)) (rest : List Char) : Option (Nat × List Char) :=
  findMatchRevFrom entries rest entries.length

/-- The `'outer` loop of `Transliterate::process_word`, one constructor of
fuel per iteration (the Rust loop has no termination guarantee when a table
entry or an override is empty; `none` models that divergence).  `room` is
the space left in the output buffer, initially `word.len() * 4`; the
returned bytes are what the loop appended. -/
def processWordAux (cm : Charmaps) (dir : Direction) (chars : List Char) :
    Nat → Nat → Nat → Option (Except Error (List Nat))
  | fuel, cursorIn, room =>
    if cursorIn < chars.length then
      match fuel with
      | 0 => none
      | fuel + 1 =>
      match findMatchRev (srcTable cm dir) (chars.drop cursorIn) with
      | some (i, c) =>
        match excDispatch cm dir chars c with
        | .error e => some (.error e)
        | .ok (some ov) =>
          match chars_to_utf8 ov room with
          | .error e => some (.error e)
          | .ok bs =>
            (processWordAux cm dir chars fuel (cursorIn + ov.length) (room - bs.length)).map
              (Except.map (fun tl => bs ++ tl))
        | .ok none =>
          match chars_to_utf8 ((tgtTable cm dir).getD i []) room with
          | .error e => some (.error e)
          | .ok bs =>
            (processWordAux cm dir chars fuel (cursorIn + c.length) (room - bs.length)).map
              (Except.map (fun tl => bs ++ tl))
      | none =>
        match chars_to_utf8 [chars.getD cursorIn ' '] room with
        | .error e => some (.error e)
        | .ok bs =>
          (processWordAux cm dir chars fuel (cursorIn + 1) (room - bs.length)).map
            (Except.map (fun tl => bs ++ tl))
    else some (.ok [])

/-- Embedding of `Transliterate::process_word`: run the scanning loop on a
buffer of four bytes per input byte, truncate to the written length (the
functional model keeps only written bytes, so truncation is implicit) and
convert back to a string via `String::from_utf8`. -/
def process_word (cm : Charmaps) (dir : Direction) (fuel : Nat) (word : List Char) :
    Option (Except Error (List Char)) :=
  match processWordAux cm dir word fuel 0 (4 * byteLen word) with
  | none => none
  | some (.error e) => some (.error e)
  | some (.ok bytes) =>
    some (match utf8Decode bytes with
          | some s => .ok s
          | none => .error .FromUTFError)

/-- The `White_Space` code points recognised by Rust's
`char::is_whitespace` (the Unicode `White_Space` property). -/
def rustIsWhitespace (c : Char) : Bool :=
  c.toNat ∈ ([0x9, 0xA, 0xB, 0xC, 0xD, 0x20, 0x85, 0xA0, 0x1680,
    0x2000, 0x2001, 0x2002, 0x2003, 0x2004, 0x2005, 0x2006, 0x2007,
    0x2008, 0x2009, 0x200A, 0x2028, 0x2029, 0x202F, 0x205F, 0x3000] : List Nat)

/-- Accumulator-based splitter behind `str::split_whitespace`: maximal runs
of non-whitespace characters, in order, empty runs skipped. -/
def splitWhitespaceAux : List Char → List Char → List (List Char)
  | [], acc => if acc.isEmpty then [] else [acc.reverse]
  | c :: cs, acc =>
    if rustIsWhitespace c then
      if acc.isEmpty then splitWhitespaceAux cs []
      else acc.reverse :: splitWhitespaceAux cs []
    else splitWhitespaceAux cs (c :: acc)

/-- Model of `str::split_whitespace`. -/
def splitWhitespace (s : List Char) : List (List Char) := splitWhitespaceAux s []

/-- The word loop of `Transliterate::process`: transliterate each word,
append it and a single `' '`, stopping at the first failure. -/
def processAux (cm : Charmaps) (dir : Direction) (fuel : Nat) :
    List (List Char) → Option (Except Error (List Char))
  | [] => some (.ok [])
  | w :: ws =>
    match process_word cm dir fuel w with
    | none => none
    | some (.error e) => some (.error e)
    | some (.ok r) =>
      (processAux cm dir fuel ws).map (Except.map (fun tl => r ++ ' ' :: tl))

/-- Embedding of `Transliterate::process`: split the input on whitespace,
transliterate the words, join with single spaces (`output.pop()` removes the
trailing space appended after the last word, modelled by `dropLast`). -/
def process (cm : Charmaps) (dir : Direction) (fuel : Nat) (input : List Char) :
    Option (Except Error (List Char)) :=
  (processAux cm dir fuel (splitWhitespace input)).map (Except.map List.dropLast)

/-- Joining word results with single spaces, the shape produced by
`process` (used to state the word-independence and whitespace claims). -/
def joinSpace : List (List Char) → List Char
  | [] => []
  | [r] => r
  | r :: rs => r ++ ' ' :: joinSpace rs

/-- A lowercase marker string as stored in the exception dictionary:
`str::as_bytes` of the literal, i.e. the UTF-8 bytes of its characters. -/
def mkMarker (s : List Char) : List Nat := s.flatMap charUtf8

/-- Modelled from the spec: the `charmaps` module (`mod charmaps;` in
`src/transliterate.rs`) is not under `src`, so its constant tables are
reconstructed here from the spec's data model (section 3) and the canonical
alphabet correspondence exhibited by the `EXAMPLES` fixtures in the source:
parallel Latin→Cyrillic source/target lists containing the single canonical
letters followed by the digraph forms (longer sequences registered after
their single-letter prefixes, as section 4.1 requires), including the
denormalized digraph case variants. -/
def serbianPairsL2C : List (List Char × List Char) :=
  [ (['A'], ['А']), (['B'], ['Б']), (['V'], ['В']), (['G'], ['Г']),
    (['D'], ['Д']), (['Đ'], ['Ђ']), (['E'], ['Е']), (['Ž'], ['Ж']),
    (['Z'], ['З']), (['I'], ['И']), (['J'], ['Ј']), (['K'], ['К']),
    (['L'], ['Л']), (['M'], ['М']), (['N'], ['Н']), (['O'], ['О']),
    (['P'], ['П']), (['R'], ['Р']), (['S'], ['С']), (['T'], ['Т']),
    (['Ć'], ['Ћ']), (['U'], ['У']), (['F'], ['Ф']), (['H'], ['Х']),
    (['C'], ['Ц']), (['Č'], ['Ч']), (['Š'], ['Ш']),
    (['a'], ['а']), (['b'], ['б']), (['v'], ['в']), (['g'], ['г']),
    (['d'], ['д']), (['đ'], ['ђ']), (['e'], ['е']), (['ž'], ['ж']),
    (['z'], ['з']), (['i'], ['и']), (['j'], ['ј']), (['k'], ['к']),
    (['l'], ['л']), (['m'], ['м']), (['n'], ['н']), (['o'], ['о']),
    (['p'], ['п']), (['r'], ['р']), (['s'], ['с']), (['t'], ['т']),
    (['ć'], ['ћ']), (['u'], ['у']), (['f'], ['ф']), (['h'], ['х']),
    (['c'], ['ц']), (['č'], ['ч']), (['š'], ['ш']),
    (['L', 'j'], ['Љ']), (['L', 'J'], ['Љ']), (['l', 'j'], ['љ']),
    (['N', 'j'], ['Њ']), (['N', 'J'], ['Њ']), (['n', 'j'], ['њ']),
    (['D', 'ž'], ['Џ']), (['D', 'Ž'], ['Џ']), (['d', 'ž'], ['џ']),
    (['D', 'j'], ['Ђ']), (['D', 'J'], ['Ђ']), (['d', 'j'], ['ђ']) ]

/-- Modelled from the spec: the Cyrillic→Latin canonical tables of the
missing `charmaps` module; every source entry is a single Cyrillic letter
mapped to its canonical Latin rendering. -/
def serbianPairsC2L : List (List Char × List Char) :=
  [ (['А'], ['A']), (['Б'], ['B']), (['В'], ['V']), (['Г'], ['G']),
    (['Д'], ['D']), (['Ђ'], ['Đ']), (['Е'], ['E']), (['Ж'], ['Ž']),
    (['З'], ['Z']), (['И'], ['I']), (['Ј'], ['J']), (['К'], ['K']),
    (['Л'], ['L']), (['Љ'], ['L', 'j']), (['М'], ['M']), (['Н'], ['N']),
    (['Њ'], ['N', 'j']), (['О'], ['O']), (['П'], ['P']), (['Р'], ['R']),
    (['С'], ['S']), (['Т'], ['T']), (['Ћ'], ['Ć']), (['У'], ['U']),
    (['Ф'], ['F']), (['Х'], ['H']), (['Ц'], ['C']), (['Ч'], ['Č']),
    (['Џ'], ['D', 'ž']), (['Ш'], ['Š']),
    (['а'], ['a']), (['б'], ['b']), (['в'], ['v']), (['г'], ['g']),
    (['д'], ['d']), (['ђ'], ['đ']), (['е'], ['e']), (['ж'], ['ž']),
    (['з'], ['z']), (['и'], ['i']), (['ј'], ['j']), (['к'], ['k']),
    (['л'], ['l']), (['љ'], ['l', 'j']), (['м'], ['m']), (['н'], ['n']),
    (['њ'], ['n', 'j']), (['о'], ['o']), (['п'], ['p']), (['р'], ['r']),
    (['с'], ['s']), (['т'], ['t']), (['ћ'], ['ć']), (['у'], ['u']),
    (['ф'], ['f']), (['х'], ['h']), (['ц'], ['c']), (['ч'], ['č']),
    (['џ'], ['d', 'ž']), (['ш'], ['š']) ]

/-- Modelled from the spec: the `DIGRAPH_EXCEPTIONS` dictionary of the
missing `charmaps` module — the three ambiguous digraph groups (dj, dž, nj),
each alternative paired with the two-letter Cyrillic rendering selected when
a marker substring occurs in the lowercased word; the marker lists carry the
markers exercised by the `EXAMPLES` fixtures. -/
def serbianExceptions : List DigraphException :=
  [ { latin := [['D', 'j'], ['D', 'J'], ['d', 'j']],
      cyrillic := [['Д', 'ј'], ['Д', 'Ј'], ['д', 'ј']],
      exceptions := [mkMarker ['a', 'd', 'j', 'e', 'k', 't', 'i', 'v'],
                     mkMarker ['z', 'a', 'b', 'l', 'u', 'd', 'j', 'e']] },
    { latin := [['D', 'ž'], ['D', 'Ž'], ['d', 'ž']],
      cyrillic := [['Д', 'ж'], ['Д', 'Ж'], ['д', 'ж']],
      exceptions := [mkMarker ['o', 'd', 'ž', 'v']] },
    { latin := [['N', 'j'], ['N', 'J'], ['n', 'j']],
      cyrillic := [['Н', 'ј'], ['Н', 'Ј'], ['н', 'ј']],
      exceptions := [mkMarker ['k', 'e', 'n', 'j', 'o', 'n'],
                     mkMarker ['k', 'o', 'n', 'j', 'u', 'g'],
                     mkMarker ['t', 'a', 'n', 'j', 'u', 'g']] } ]

/-- Modelled from the spec: the full constant dataset of the missing
`charmaps` module. -/
def cmSerbian : Charmaps :=
  { latinDirty := serbianPairsL2C.map Prod.fst
    cyrillicDirty := serbianPairsL2C.map Prod.snd
    cyrillicClean := serbianPairsC2L.map Prod.fst
    latinClean := serbianPairsC2L.map Prod.snd
    digraphExceptions := serbianExceptions }

/-- Character-level lowercase buffer: the value `lowercaseBuffer` returns
whenever the lowercased word fits its `word.len() * 4` budget. -/
def lowerBuf (word : List Char) : List Nat :=
  (word.flatMap toLower).flatMap charUtf8 ++
    List.replicate (word.length * 4 - ((word.flatMap toLower).flatMap charUtf8).length) 0

/-- Character-level disambiguator: `digraph_exception` stripped of the
buffer bookkeeping (the two agree whenever the lowercase buffer fits). -/
def digraphAltChar (word character : List Char) (markers : List (List Nat)) :
    List (List Char) → List (List Char) → Option (List Char)
  | [], _ => none
  | lat :: lats, cyrs =>
    if lat = character then
      if markers.any (fun m => isSub m (lowerBuf word)) then some (cyrs.headD [])
      else digraphAltChar word character markers lats cyrs.tail
    else digraphAltChar word character markers lats cyrs.tail

/-- Character-level disambiguator over the whole exception dictionary. -/
def digraphExcChar (excs : List DigraphException) (word character : List Char) :
    Option (List Char) :=
  match excs with
  | [] => none
  | exc :: rest =>
    match digraphAltChar word character exc.exceptions exc.latin exc.cyrillic with
    | some ov => some ov
    | none => digraphExcChar rest word character

/-- The character-level value of the direction-guarded disambiguator. -/
def excDispatchChar (cm : Charmaps) (dir : Direction) (word c : List Char) :
    Option (List Char) :=
  match dir with
  | .LatinToCyrillic => digraphExcChar cm.digraphExceptions word c
  | .CyrillicToLatin => none

/-- Character-level word scan: the same control flow as `processWordAux`
but producing the emitted characters instead of bytes, with no buffer. -/
def scanF (cm : Charmaps) (dir : Direction) (word : List Char) :
    Nat → Nat → List Char
  | fuel, cursor =>
    if cursor < word.length then
      match fuel with
      | 0 => []
      | fuel + 1 =>
      match findMatchRev (srcTable cm dir) (word.drop cursor) with
      | some (i, c) =>
        match excDispatchChar cm dir word c with
        | some ov => ov ++ scanF cm dir word fuel (cursor + ov.length)
        | none => (tgtTable cm dir).getD i [] ++ scanF cm dir word fuel (cursor + c.length)
      | none => word.getD cursor ' ' :: scanF cm dir word fuel (cursor + 1)
    else []

/-- The character map applied by the Cyrillic→Latin rescan: last-registered
single-character entry match, pass-through otherwise. -/
def mapC (cm : Charmaps) (c : Char) : List Char :=
  match findMatchRev cm.cyrillicClean [c] with
  | some (i, _) => cm.latinClean.getD i []
  | none => [c]

/-- A Latin→Cyrillic scan is round-safe when each step's emitted chunk,
read back through the Cyrillic→Latin character map, reproduces exactly the
source characters the step consumed, and the scan finishes within fuel. -/
def roundSafeF (cm : Charmaps) (word : List Char) : Nat → Nat → Bool
  | fuel, cursor =>
    if cursor < word.length then
      match fuel with
      | 0 => false
      | fuel + 1 =>
      match findMatchRev (srcTable cm .LatinToCyrillic) (word.drop cursor) with
      | some (i, c) =>
        match excDispatchChar cm .LatinToCyrillic word c with
        | some ov =>
          (ov.flatMap (mapC cm) == (word.drop cursor).take ov.length) &&
            roundSafeF cm word fuel (cursor + ov.length)
        | none =>
          (((tgtTable cm .LatinToCyrillic).getD i []).flatMap (mapC cm) == c) &&
            roundSafeF cm word fuel (cursor + c.length)
      | none =>
        (mapC cm (word.getD cursor ' ') == [word.getD cursor ' ']) &&
          roundSafeF cm word fuel (cursor + 1)
    else true

/-- Modelled from the spec (refinement counterpart for the cursor-advance
claim): the scanner as sections 4.2/4.3 of the spec word it — on an
exception override the input cursor advances by the *matched source
sequence's* length (`cursorIn + c.length`); the source instead advances by
the override's length.  Identical to `processWordAux` in every other
respect. -/
def processWordAuxSrc (cm : Charmaps) (dir : Direction) (chars : List Char) :
    Nat → Nat → Nat → Option (Except Error (List Nat))
  | fuel, cursorIn, room =>
    if cursorIn < chars.length then
      match fuel with
      | 0 => none
      | fuel + 1 =>
      match findMatchRev (srcTable cm dir) (chars.drop cursorIn) with
      | some (i, c) =>
        match excDispatch cm dir chars c with
        | .error e => some (.error e)
        | .ok (some ov) =>
          match chars_to_utf8 ov room with
          | .error e => some (.error e)
          | .ok bs =>
            (processWordAuxSrc cm dir chars fuel (cursorIn + c.length) (room - bs.length)).map
              (Except.map (fun tl => bs ++ tl))
        | .ok none =>
          match chars_to_utf8 ((tgtTable cm dir).getD i []) room with
          | .error e => some (.error e)
          | .ok bs =>
            (processWordAuxSrc cm dir chars fuel (cursorIn + c.length) (room - bs.length)).map
              (Except.map (fun tl => bs ++ tl))
      | none =>
        match chars_to_utf8 [chars.getD cursorIn ' '] room with
        | .error e => some (.error e)
        | .ok bs =>
          (processWordAuxSrc cm dir chars fuel (cursorIn + 1) (room - bs.length)).map
            (Except.map (fun tl => bs ++ tl))
    else some (.ok [])

/-- The word processor built on the spec-worded cursor advance, for
comparison with `process_word`. -/
def process_word_srcAdvance (cm : Charmaps) (dir : Direction) (fuel : Nat) (word : List Char) :
    Option (Except Error (List Char)) :=
  match processWordAuxSrc cm dir word fuel 0 (4 * byteLen word) with
  | none => none
  | some (.error e) => some (.error e)
  | some (.ok bytes) =>
    some (match utf8Decode bytes with
          | some s => .ok s
          | none => .error .FromUTFError)

/-- A minimal synthetic table whose single exception override (two
characters) is longer than its matched source sequence (one character),
making the two cursor-advance policies observably different. -/
def cmOverride : Charmaps :=
  { latinDirty := [['a']]
    cyrillicDirty := [['x']]
    cyrillicClean := []
    latinClean := []
    digraphExceptions := [ { latin := [['a']], cyrillic := [['b', 'c']],
                             exceptions := [[97]] } ] }

/-- A two-entry exception dictionary in which more than one alternative
applies to the matched sequence, exercising the declaration-order
tie-break: entry 0 lists alternatives `x` then `a`, entry 1 lists `a`; all
markers hit inside the word `a`. -/
def excsOrder : List DigraphException :=
  [ { latin := [['x'], ['a']], cyrillic := [['P'], ['Q']], exceptions := [[97]] },
    { latin := [['a']], cyrillic := [['R']], exceptions := [[97]] } ]

/-- Whether an exception entry can fire for the matched sequence inside the
given word: some alternative equals the matched sequence and some marker of
the entry occurs in the lowercased word. -/
def entryApplies (word character : List Char) (exc : DigraphException) : Prop :=
  (∃ j, j < exc.latin.length ∧ exc.latin.getD j [] = character) ∧
    (exc.exceptions.any fun m => isSub m (lowerBuf word)) = true

/-! ### UTF-8 encode/decode facts -/

theorem charUtf8_ne_nil (c : Char) : charUtf8 c ≠ [] := by
  unfold charUtf8
  split
  · simp
  split
  · simp
  split <;> simp

theorem charUtf8_length_pos (c : Char) : 0 < (charUtf8 c).length :=
  List.length_pos.2 (charUtf8_ne_nil c)

theorem char_valid_nat (c : Char) :
    c.toNat < 0xD800 ∨ (0xDFFF < c.toNat ∧ c.toNat < 0x110000) := c.valid

theorem utf8DecodeOne_encode (c : Char) (rest : List Nat) :
    utf8DecodeOne (charUtf8 c ++ rest) = some (c, rest) := by
  have hv := char_valid_nat c
  rcases Nat.lt_or_ge c.toNat 0x80 with h1 | h1
  · have henc : charUtf8 c = [c.toNat] := by simp [charUtf8, h1]
    rw [henc]
    simp [utf8DecodeOne, h1, Char.ofNat_toNat]
  rcases Nat.lt_or_ge c.toNat 0x800 with h2 | h2
  · have henc : charUtf8 c = [0xC0 + c.toNat / 64, 0x80 + c.toNat % 64] := by
      unfold charUtf8
      rw [if_neg (by omega), if_pos h2]
    have d1 : c.toNat / 64 < 32 := by omega
    have d2 : 2 ≤ c.toNat / 64 := by omega
    have e1 : ¬ (0xC0 + c.toNat / 64 < 0x80) := by omega
    have e2 : ¬ (0xC0 + c.toNat / 64 < 0xC0) := by omega
    have e3 : 0xC0 + c.toNat / 64 < 0xE0 := by omega
    have e4 : 0x80 ≤ 0x80 + c.toNat % 64 ∧ 0x80 + c.toNat % 64 < 0xC0 := by omega
    have e5 : (0xC0 + c.toNat / 64 - 0xC0) * 64 + (0x80 + c.toNat % 64 - 0x80) = c.toNat := by
      omega
    rw [henc]
    simp only [List.cons_append, List.nil_append, utf8DecodeOne, if_neg e1, if_neg e2,
      if_pos e3, if_pos e4, e5, if_pos h1, Char.ofNat_toNat]
  rcases Nat.lt_or_ge c.toNat 0x10000 with h3 | h3
  · have henc : charUtf8 c =
        [0xE0 + c.toNat / 4096, 0x80 + c.toNat / 64 % 64, 0x80 + c.toNat % 64] := by
      unfold charUtf8
      rw [if_neg (by omega), if_neg (by omega), if_pos h3]
    have d1 : c.toNat / 4096 < 16 := by omega
    have e1 : ¬ (0xE0 + c.toNat / 4096 < 0x80) := by omega
    have e2 : ¬ (0xE0 + c.toNat / 4096 < 0xC0) := by omega
    have e3 : ¬ (0xE0 + c.toNat / 4096 < 0xE0) := by omega
    have e4 : 0xE0 + c.toNat / 4096 < 0xF0 := by omega
    have e5 : (0x80 ≤ 0x80 + c.toNat / 64 % 64 ∧ 0x80 + c.toNat / 64 % 64 < 0xC0) ∧
        (0x80 ≤ 0x80 + c.toNat % 64 ∧ 0x80 + c.toNat % 64 < 0xC0) := by omega
    have e6 : (0xE0 + c.toNat / 4096 - 0xE0) * 4096 + (0x80 + c.toNat / 64 % 64 - 0x80) * 64 +
        (0x80 + c.toNat % 64 - 0x80) = c.toNat := by omega
    have e7 : 0x800 ≤ c.toNat ∧ ¬(0xD800 ≤ c.toNat ∧ c.toNat < 0xE000) := by omega
    rw [henc]
    simp only [List.cons_append, List.nil_append, utf8DecodeOne, if_neg e1, if_neg e2,
      if_neg e3, if_pos e4, if_pos e5, e6, if_pos e7, Char.ofNat_toNat]
  · have henc : charUtf8 c = [0xF0 + c.toNat / 262144, 0x80 + c.toNat / 4096 % 64,
        0x80 + c.toNat / 64 % 64, 0x80 + c.toNat % 64] := by
      unfold charUtf8
      rw [if_neg (by omega), if_neg (by omega), if_neg (by omega)]
    have d1 : c.toNat / 262144 < 5 := by omega
    have e1 : ¬ (0xF0 + c.toNat / 262144 < 0x80) := by omega
    have e2 : ¬ (0xF0 + c.toNat / 262144 < 0xC0) := by omega
    have e3 : ¬ (0xF0 + c.toNat / 262144 < 0xE0) := by omega
    have e4 : ¬ (0xF0 + c.toNat / 262144 < 0xF0) := by omega
    have e5 : 0xF0 + c.toNat / 262144 < 0xF8 := by omega
    have e6 : (0x80 ≤ 0x80 + c.toNat / 4096 % 64 ∧ 0x80 + c.toNat / 4096 % 64 < 0xC0) ∧
        (0x80 ≤ 0x80 + c.toNat / 64 % 64 ∧ 0x80 + c.toNat / 64 % 64 < 0xC0) ∧
        (0x80 ≤ 0x80 + c.toNat % 64 ∧ 0x80 + c.toNat % 64 < 0xC0) := by omega
    have e7 : (0xF0 + c.toNat / 262144 - 0xF0) * 262144 +
        (0x80 + c.toNat / 4096 % 64 - 0x80) * 4096 +
        (0x80 + c.toNat / 64 % 64 - 0x80) * 64 + (0x80 + c.toNat % 64 - 0x80) = c.toNat := by
      omega
    have e8 : 0x10000 ≤ c.toNat ∧ c.toNat < 0x110000 := by omega
    rw [henc]
    simp only [List.cons_append, List.nil_append, utf8DecodeOne, if_neg e1, if_neg e2,
      if_neg e3, if_neg e4, if_pos e5, if_pos e6, e7, if_pos e8, Char.ofNat_toNat]

theorem utf8DecodeAux_encode (cs : List Char) :
    ∀ fuel, (cs.flatMap charUtf8).length ≤ fuel →
      utf8DecodeAux fuel (cs.flatMap charUtf8) = some cs := by
  induction cs with
  | nil => intro fuel _; simp [utf8DecodeAux]
  | cons c cs ih =>
    intro fuel hfuel
    obtain ⟨b, bs, hb⟩ := List.exists_cons_of_ne_nil (charUtf8_ne_nil c)
    have hflat : (c :: cs).flatMap charUtf8 = charUtf8 c ++ cs.flatMap charUtf8 := by
      simp
    rw [hflat] at hfuel ⊢
    have hlen : 0 < (charUtf8 c ++ cs.flatMap charUtf8).length := by
      simp [hb]
    obtain ⟨f, rfl⟩ : ∃ f, fuel = f + 1 := by
      cases fuel with
      | zero => omega
      | succ f => exact ⟨f, rfl⟩
    have hcons : charUtf8 c ++ cs.flatMap charUtf8 = b :: (bs ++ cs.flatMap charUtf8) := by
      simp [hb]
    rw [hcons]
    have hone : utf8DecodeOne (b :: (bs ++ cs.flatMap charUtf8)) = some (c, cs.flatMap charUtf8) := by
      rw [← hcons, utf8DecodeOne_encode]
    simp only [utf8DecodeAux, hone]
    have hrest : (cs.flatMap charUtf8).length ≤ f := by
      rw [List.length_append] at hfuel
      have := charUtf8_length_pos c
      omega
    rw [ih f hrest]
    rfl

theorem utf8Decode_encode (cs : List Char) :
    utf8Decode (cs.flatMap charUtf8) = some cs :=
  utf8DecodeAux_encode cs _ (Nat.le_refl _)

/-! ### chars_to_utf8 facts -/

theorem chars_to_utf8_ok {cs : List Char} {room : Nat} {bs : List Nat}
    (h : chars_to_utf8 cs room = .ok bs) : bs = cs.flatMap charUtf8 := by
  induction cs generalizing room bs with
  | nil => simp [chars_to_utf8] at h; simp [h.symm]
  | cons c cs ih =>
    simp only [chars_to_utf8] at h
    split at h
    · exact absurd h (by simp)
    · cases hrec : chars_to_utf8 cs (room - (charUtf8 c).length) with
      | error e => rw [hrec] at h; simp [Except.map] at h
      | ok tl =>
        rw [hrec] at h
        simp [Except.map] at h
        rw [← h, ih hrec]
        simp

theorem chars_to_utf8_fits (cs : List Char) (room : Nat) (h : byteLen cs ≤ room) :
    chars_to_utf8 cs room = .ok (cs.flatMap charUtf8) := by
  induction cs generalizing room with
  | nil => simp [chars_to_utf8]
  | cons c cs ih =>
    have hlen : (charUtf8 c).length + byteLen cs = byteLen (c :: cs) := by
      simp [byteLen]
    simp only [chars_to_utf8]
    rw [if_neg (by simp [byteLen] at h ⊢; omega)]
    rw [ih (room - (charUtf8 c).length) (by simp [byteLen] at h ⊢; omega)]
    simp [Except.map]

theorem chars_to_utf8_error {cs : List Char} {room : Nat} {e : Error}
    (h : chars_to_utf8 cs room = .error e) : e = .BufferOverflow := by
  induction cs generalizing room e with
  | nil => simp [chars_to_utf8] at h
  | cons c cs ih =>
    simp only [chars_to_utf8] at h
    split at h
    · cases h; rfl
    · cases hrec : chars_to_utf8 cs (room - (charUtf8 c).length) with
      | error e2 =>
        rw [hrec] at h
        simp [Except.map] at h
        rw [← h]
        exact ih hrec
      | ok tl => rw [hrec] at h; simp [Except.map] at h

/-! ### Prefix-test and reverse-search facts -/

theorem isPre_iff_take (p : List Char) : ∀ l, isPre p l = true ↔ l.take p.length = p := by
  induction p with
  | nil => intro l; simp [isPre]
  | cons a as ih =>
    intro l
    cases l with
    | nil => simp [isPre]
    | cons b bs =>
      simp only [isPre, List.length_cons, List.take_succ_cons, Bool.and_eq_true, beq_iff_eq,
        List.cons.injEq, ih bs]
      constructor
      · rintro ⟨rfl, h⟩; exact ⟨rfl, h⟩
      · rintro ⟨rfl, h⟩; exact ⟨rfl, h⟩

theorem isPre_length {p l : List Char} (h : isPre p l = true) : p.length ≤ l.length := by
  have := (isPre_iff_take p l).1 h
  calc p.length = (l.take p.length).length := by rw [this]
    _ ≤ l.length := by simp

theorem isPre_self_append (p t : List Char) : isPre p (p ++ t) = true := by
  rw [isPre_iff_take]
  simp [List.take_append_of_le_length (Nat.le_refl p.length)]

theorem findMatchRevFrom_none_iff (entries : List (List Char)) (rest : List Char) :
    ∀ n, (findMatchRevFrom entries rest n = none ↔
      ∀ j, j < n → isPre (entries.getD j []) rest = false) := by
  intro n
  induction n with
  | zero => simp [findMatchRevFrom]
  | succ n ih =>
    constructor
    · intro h
      simp only [findMatchRevFrom] at h
      split at h
      · exact absurd h (by simp)
      · rename_i hfalse
        intro j hj
        rcases Nat.lt_succ_iff_lt_or_eq.1 hj with hj2 | rfl
        · exact (ih.1 h) j hj2
        · simpa using hfalse
    · intro h
      simp only [findMatchRevFrom]
      rw [if_neg (by simpa using h n (Nat.lt_succ_self n))]
      exact ih.2 (fun j hj => h j (Nat.lt_succ_of_lt hj))

theorem findMatchRevFrom_some_iff (entries : List (List Char)) (rest : List Char) :
    ∀ n i c, (findMatchRevFrom entries rest n = some (i, c) ↔
      (i < n ∧ entries.getD i [] = c ∧ isPre c rest = true ∧
        ∀ j, i < j → j < n → isPre (entries.getD j []) rest = false)) := by
  intro n
  induction n with
  | zero => intro i c; simp [findMatchRevFrom]
  | succ n ih =>
    intro i c
    simp only [findMatchRevFrom]
    by_cases h : isPre (entries.getD n []) rest = true
    · rw [if_pos h]
      constructor
      · intro hs
        have hic : n = i ∧ entries.getD n [] = c := by
          simpa [Prod.ext_iff] using hs
        obtain ⟨rfl, rfl⟩ := hic
        exact ⟨Nat.lt_succ_self n, rfl, h, fun j hj1 hj2 => by omega⟩
      · rintro ⟨hi, hc, hpre, hmax⟩
        rcases Nat.lt_succ_iff_lt_or_eq.1 hi with hi2 | rfl
        · have hf := hmax n hi2 (Nat.lt_succ_self n)
          rw [h] at hf
          cases hf
        · rw [hc]
    · rw [if_neg h]
      rw [ih i c]
      constructor
      · rintro ⟨hi, hc, hpre, hmax⟩
        refine ⟨Nat.lt_succ_of_lt hi, hc, hpre, fun j hj1 hj2 => ?_⟩
        rcases Nat.lt_succ_iff_lt_or_eq.1 hj2 with hj3 | rfl
        · exact hmax j hj1 hj3
        · simpa using h
      · rintro ⟨hi, hc, hpre, hmax⟩
        have hi2 : i < n := by
          rcases Nat.lt_succ_iff_lt_or_eq.1 hi with hi2 | rfl
          · exact hi2
          · exact absurd (hc ▸ hpre) (by simpa using h)
        exact ⟨hi2, hc, hpre, fun j hj1 hj2 => hmax j hj1 (Nat.lt_succ_of_lt hj2)⟩

theorem findMatchRev_some_iff (entries : List (List Char)) (rest : List Char) (i : Nat)
    (c : List Char) : findMatchRev entries rest = some (i, c) ↔
      (i < entries.length ∧ entries.getD i [] = c ∧ isPre c rest = true ∧
        ∀ j, i < j → j < entries.length → isPre (entries.getD j []) rest = false) :=
  findMatchRevFrom_some_iff entries rest entries.length i c

theorem findMatchRev_none_iff (entries : List (List Char)) (rest : List Char) :
    findMatchRev entries rest = none ↔
      ∀ j, j < entries.length → isPre (entries.getD j []) rest = false :=
  findMatchRevFrom_none_iff entries rest entries.length

/-! ### Error propagation facts -/

theorem lowercaseBuffer_error {word : List Char} {e : Error}
    (h : lowercaseBuffer word = .error e) : e = .BufferOverflow := by
  unfold lowercaseBuffer at h
  cases henc : chars_to_utf8 (word.flatMap toLower) (word.length * 4) with
  | error e2 =>
    rw [henc] at h
    simp [Except.map] at h
    rw [← h]
    exact chars_to_utf8_error henc
  | ok bs => rw [henc] at h; simp [Except.map] at h

theorem digraphAltAux_error {word character : List Char} {markers : List (List Nat)}
    {lats cyrs : List (List Char)} {e : Error}
    (h : digraphAltAux word character markers lats cyrs = .error e) : e = .BufferOverflow := by
  induction lats generalizing cyrs with
  | nil => simp [digraphAltAux] at h
  | cons lat lats ih =>
    simp only [digraphAltAux] at h
    split at h
    · cases hlb : lowercaseBuffer word with
      | error e2 =>
        simp only [hlb] at h
        simp at h
        rw [← h]
        exact lowercaseBuffer_error hlb
      | ok buf =>
        simp only [hlb] at h
        split at h
        · simp at h
        · exact ih h
    · exact ih h

theorem digraph_exception_error {excs : List DigraphException} {word character : List Char}
    {e : Error} (h : digraph_exception excs word character = .error e) : e = .BufferOverflow := by
  induction excs with
  | nil => simp [digraph_exception] at h
  | cons exc rest ih =>
    simp only [digraph_exception] at h
    cases halt : digraphAltAux word character exc.exceptions exc.latin exc.cyrillic with
    | error e2 =>
      rw [halt] at h
      cases h
      exact digraphAltAux_error halt
    | ok r =>
      rw [halt] at h
      cases r with
      | some ov => simp at h
      | none => exact ih h

theorem excDispatch_error {cm : Charmaps} {dir : Direction} {word c : List Char} {e : Error}
    (h : excDispatch cm dir word c = .error e) : e = .BufferOverflow := by
  rcases dir with _ | _
  · exact digraph_exception_error h
  · simp [excDispatch] at h

theorem processWordAux_some_error {cm : Charmaps} {dir : Direction} {chars : List Char}
    {fuel cursor room : Nat} {e : Error}
    (h : processWordAux cm dir chars fuel cursor room = some (.error e)) :
    e = .BufferOverflow := by
  induction fuel generalizing cursor room e with
  | zero =>
    simp only [processWordAux] at h
    split at h
    · simp at h
    · simp at h
  | succ fuel ih =>
    simp only [processWordAux] at h
    by_cases hcur : cursor < chars.length
    · rw [if_pos hcur] at h
      cases hfm : findMatchRev (srcTable cm dir) (chars.drop cursor) with
      | none =>
        simp only [hfm] at h
        cases henc : chars_to_utf8 [chars.getD cursor ' '] room with
        | error e2 =>
          simp only [henc] at h
          simp at h
          rw [← h]
          exact chars_to_utf8_error henc
        | ok bs =>
          simp only [henc] at h
          cases hrec : processWordAux cm dir chars fuel (cursor + 1) (room - bs.length) with
          | none => simp only [hrec] at h; simp at h
          | some r =>
            simp only [hrec] at h
            cases r with
            | error e2 =>
              simp [Except.map] at h
              rw [← h]
              exact ih hrec
            | ok tl => simp [Except.map] at h
      | some p =>
        obtain ⟨i, c⟩ := p
        simp only [hfm] at h
        cases hexc : excDispatch cm dir chars c with
        | error e2 =>
          simp only [hexc] at h
          simp at h
          rw [← h]
          exact excDispatch_error hexc
        | ok oov =>
          cases oov with
          | some ov =>
            simp only [hexc] at h
            cases henc : chars_to_utf8 ov room with
            | error e2 =>
              simp only [henc] at h
              simp at h
              rw [← h]
              exact chars_to_utf8_error henc
            | ok bs =>
              simp only [henc] at h
              cases hrec : processWordAux cm dir chars fuel (cursor + ov.length) (room - bs.length) with
              | none => simp only [hrec] at h; simp at h
              | some r =>
                simp only [hrec] at h
                cases r with
                | error e2 =>
                  simp [Except.map] at h
                  rw [← h]
                  exact ih hrec
                | ok tl => simp [Except.map] at h
          | none =>
            simp only [hexc] at h
            cases henc : chars_to_utf8 ((tgtTable cm dir).getD i []) room with
            | error e2 =>
              simp only [henc] at h
              simp at h
              rw [← h]
              exact chars_to_utf8_error henc
            | ok bs =>
              simp only [henc] at h
              cases hrec : processWordAux cm dir chars fuel (cursor + c.length) (room - bs.length) with
              | none => simp only [hrec] at h; simp at h
              | some r =>
                simp only [hrec] at h
                cases r with
                | error e2 =>
                  simp [Except.map] at h
                  rw [← h]
                  exact ih hrec
                | ok tl => simp [Except.map] at h
    · rw [if_neg hcur] at h
      simp at h

theorem processWordAux_ok_bytes {cm : Charmaps} {dir : Direction} {chars : List Char}
    {fuel cursor room : Nat} {bs : List Nat}
    (h : processWordAux cm dir chars fuel cursor room = some (.ok bs)) :
    ∃ cs : List Char, bs = cs.flatMap charUtf8 := by
  induction fuel generalizing cursor room bs with
  | zero =>
    simp only [processWordAux] at h
    split at h
    · simp at h
    · simp at h
      exact ⟨[], by simp [← h]⟩
  | succ fuel ih =>
    simp only [processWordAux] at h
    by_cases hcur : cursor < chars.length
    · rw [if_pos hcur] at h
      cases hfm : findMatchRev (srcTable cm dir) (chars.drop cursor) with
      | none =>
        simp only [hfm] at h
        cases henc : chars_to_utf8 [chars.getD cursor ' '] room with
        | error e2 => simp only [henc] at h; simp at h
        | ok chunk =>
          simp only [henc] at h
          cases hrec : processWordAux cm dir chars fuel (cursor + 1) (room - chunk.length) with
          | none => simp only [hrec] at h; simp at h
          | some r =>
            simp only [hrec] at h
            cases r with
            | error e2 => simp [Except.map] at h
            | ok tl =>
              simp [Except.map] at h
              obtain ⟨cs, rfl⟩ := ih hrec
              exact ⟨[chars.getD cursor ' '] ++ cs,
                by rw [← h, chars_to_utf8_ok henc, List.flatMap_append]⟩
      | some p =>
        obtain ⟨i, c⟩ := p
        simp only [hfm] at h
        cases hexc : excDispatch cm dir chars c with
        | error e2 => simp only [hexc] at h; simp at h
        | ok oov =>
          cases oov with
          | some ov =>
            simp only [hexc] at h
            cases henc : chars_to_utf8 ov room with
            | error e2 => simp only [henc] at h; simp at h
            | ok chunk =>
              simp only [henc] at h
              cases hrec : processWordAux cm dir chars fuel (cursor + ov.length) (room - chunk.length) with
              | none => simp only [hrec] at h; simp at h
              | some r =>
                simp only [hrec] at h
                cases r with
                | error e2 => simp [Except.map] at h
                | ok tl =>
                  simp [Except.map] at h
                  obtain ⟨cs, rfl⟩ := ih hrec
                  exact ⟨ov ++ cs, by rw [← h, chars_to_utf8_ok henc, List.flatMap_append]⟩
          | none =>
            simp only [hexc] at h
            cases henc : chars_to_utf8 ((tgtTable cm dir).getD i []) room with
            | error e2 => simp only [henc] at h; simp at h
            | ok chunk =>
              simp only [henc] at h
              cases hrec : processWordAux cm dir chars fuel (cursor + c.length) (room - chunk.length) with
              | none => simp only [hrec] at h; simp at h
              | some r =>
                simp only [hrec] at h
                cases r with
                | error e2 => simp [Except.map] at h
                | ok tl =>
                  simp [Except.map] at h
                  obtain ⟨cs, rfl⟩ := ih hrec
                  exact ⟨(tgtTable cm dir).getD i [] ++ cs,
                    by rw [← h, chars_to_utf8_ok henc, List.flatMap_append]⟩
    · rw [if_neg hcur] at h
      simp at h
      exact ⟨[], by simp [← h]⟩

theorem process_word_error {cm : Charmaps} {dir : Direction} {fuel : Nat} {word : List Char}
    {e : Error} (h : process_word cm dir fuel word = some (.error e)) :
    e = .BufferOverflow ∨ e = .FromUTFError := by
  unfold process_word at h
  cases haux : processWordAux cm dir word fuel 0 (4 * byteLen word) with
  | none => simp only [haux] at h; simp at h
  | some r =>
    cases r with
    | error e2 =>
      simp only [haux] at h
      simp at h
      exact Or.inl (h ▸ processWordAux_some_error haux)
    | ok bytes =>
      simp only [haux] at h
      obtain ⟨cs, rfl⟩ := processWordAux_ok_bytes haux
      rw [utf8Decode_encode cs] at h
      simp at h

theorem process_word_no_utf_error (cm : Charmaps) (dir : Direction) (fuel : Nat)
    (word : List Char) : process_word cm dir fuel word ≠ some (.error .FromUTFError) := by
  intro h
  unfold process_word at h
  cases haux : processWordAux cm dir word fuel 0 (4 * byteLen word) with
  | none => simp only [haux] at h; simp at h
  | some r =>
    cases r with
    | error e2 =>
      simp only [haux] at h
      simp at h
      have := processWordAux_some_error haux
      rw [h] at this
      cases this
    | ok bytes =>
      simp only [haux] at h
      obtain ⟨cs, rfl⟩ := processWordAux_ok_bytes haux
      rw [utf8Decode_encode cs] at h
      simp at h

theorem processAux_error {cm : Charmaps} {dir : Direction} {fuel : Nat}
    {ws : List (List Char)} {e : Error}
    (h : processAux cm dir fuel ws = some (.error e)) :
    e = .BufferOverflow ∨ e = .FromUTFError := by
  induction ws generalizing e with
  | nil => simp [processAux] at h
  | cons w ws ih =>
    simp only [processAux] at h
    cases hw : process_word cm dir fuel w with
    | none => simp only [hw] at h; simp at h
    | some r =>
      cases r with
      | error e2 =>
        simp only [hw] at h
        simp at h
        exact h ▸ process_word_error hw
      | ok rw2 =>
        simp only [hw] at h
        cases hrec : processAux cm dir fuel ws with
        | none => simp only [hrec] at h; simp at h
        | some r2 =>
          simp only [hrec] at h
          cases r2 with
          | error e2 =>
            simp [Except.map] at h
            exact h ▸ ih hrec
          | ok tl => simp [Except.map] at h

theorem process_error {cm : Charmaps} {dir : Direction} {fuel : Nat} {input : List Char}
    {e : Error} (h : process cm dir fuel input = some (.error e)) :
    e = .BufferOverflow ∨ e = .FromUTFError := by
  unfold process at h
  cases haux : processAux cm dir fuel (splitWhitespace input) with
  | none => simp only [haux] at h; simp at h
  | some r =>
    cases r with
    | error e2 =>
      rw [haux] at h
      simp [Except.map] at h
      exact h ▸ processAux_error haux
    | ok tl => rw [haux] at h; simp [Except.map] at h

/-! ### Whitespace splitting facts -/

theorem splitWhitespaceAux_ws_only {s : List Char} (hs : ∀ c ∈ s, rustIsWhitespace c = true) :
    ∀ acc, splitWhitespaceAux s acc = if acc.isEmpty then [] else [acc.reverse] := by
  induction s with
  | nil => intro acc; simp [splitWhitespaceAux]
  | cons c cs ih =>
    intro acc
    have hc : rustIsWhitespace c = true := hs c (by simp)
    have hcs : ∀ x ∈ cs, rustIsWhitespace x = true := fun x hx => hs x (by simp [hx])
    simp only [splitWhitespaceAux, hc, if_pos]
    by_cases hacc : acc.isEmpty
    · rw [if_pos hacc, if_pos hacc, ih hcs []]
      simp
    · rw [if_neg hacc, if_neg hacc, ih hcs []]
      simp

theorem splitWhitespaceAux_ws_drop {s : List Char} (hs : ∀ c ∈ s, rustIsWhitespace c = true)
    (t : List Char) : splitWhitespaceAux (s ++ t) [] = splitWhitespaceAux t [] := by
  induction s with
  | nil => simp
  | cons c cs ih =>
    have hc : rustIsWhitespace c = true := hs c (by simp)
    have hcs : ∀ x ∈ cs, rustIsWhitespace x = true := fun x hx => hs x (by simp [hx])
    simp only [List.cons_append, splitWhitespaceAux, hc, if_pos]
    rw [if_pos (by simp)]
    exact ih hcs

theorem splitWhitespaceAux_cons (c : Char) (l acc : List Char) :
    splitWhitespaceAux (c :: l) acc =
      if rustIsWhitespace c = true then
        (if acc.isEmpty then splitWhitespaceAux l []
         else acc.reverse :: splitWhitespaceAux l [])
      else splitWhitespaceAux l (c :: acc) := rfl

theorem splitWhitespaceAux_trailing {s : List Char} (hs : ∀ c ∈ s, rustIsWhitespace c = true) :
    ∀ t acc, splitWhitespaceAux (t ++ s) acc = splitWhitespaceAux t acc := by
  intro t
  induction t with
  | nil =>
    intro acc
    rw [List.nil_append, splitWhitespaceAux_ws_only hs acc]
    simp [splitWhitespaceAux]
  | cons c cs ih =>
    intro acc
    rw [List.cons_append, splitWhitespaceAux_cons, splitWhitespaceAux_cons]
    by_cases hc : rustIsWhitespace c = true
    · rw [if_pos hc, if_pos hc, ih []]
    · rw [if_neg hc, if_neg hc, ih (c :: acc)]

theorem splitWhitespaceAux_word {w : List Char} (hw : ∀ c ∈ w, rustIsWhitespace c = false) :
    ∀ t acc, splitWhitespaceAux (w ++ t) acc = splitWhitespaceAux t (w.reverse ++ acc) := by
  induction w with
  | nil => intro t acc; simp
  | cons c cs ih =>
    intro t acc
    have hc : rustIsWhitespace c = false := hw c (by simp)
    have hcs : ∀ x ∈ cs, rustIsWhitespace x = false := fun x hx => hw x (by simp [hx])
    rw [List.cons_append, splitWhitespaceAux_cons, if_neg (by simp [hc]), ih hcs t (c :: acc)]
    simp

theorem splitWhitespaceAux_sep {u : List Char} (hu : ∀ c ∈ u, rustIsWhitespace c = true)
    (hu0 : u ≠ []) (t acc : List Char) :
    splitWhitespaceAux (u ++ t) acc =
      (if acc.isEmpty then [] else [acc.reverse]) ++ splitWhitespaceAux t [] := by
  cases u with
  | nil => exact absurd rfl hu0
  | cons c cs =>
    have hc : rustIsWhitespace c = true := hu c (by simp)
    have hcs : ∀ x ∈ cs, rustIsWhitespace x = true := fun x hx => hu x (by simp [hx])
    rw [List.cons_append, splitWhitespaceAux_cons, if_pos hc]
    by_cases hacc : acc.isEmpty
    · rw [if_pos hacc, if_pos hacc, splitWhitespaceAux_ws_drop hcs t]
      simp
    · rw [if_neg hacc, if_neg hacc, splitWhitespaceAux_ws_drop hcs t]
      simp

theorem splitWhitespace_single_word {w : List Char} (hw0 : w ≠ [])
    (hw : ∀ c ∈ w, rustIsWhitespace c = false) : splitWhitespace w = [w] := by
  unfold splitWhitespace
  have := splitWhitespaceAux_word hw [] []
  rw [List.append_nil] at this
  rw [this]
  simp [splitWhitespaceAux]
  intro hrev
  exact hw0 (by simpa using congrArg List.reverse hrev)

theorem splitWhitespace_length_le (s : List Char) :
    ∀ w ∈ splitWhitespace s, w.length ≤ s.length := by
  suffices h : ∀ s acc, ∀ w ∈ splitWhitespaceAux s acc, w.length ≤ s.length + acc.length by
    intro w hw
    simpa using h s [] w hw
  intro s
  induction s with
  | nil =>
    intro acc w hw
    simp only [splitWhitespaceAux] at hw
    split at hw
    · simp at hw
    · simp at hw
      simp [hw]
  | cons c cs ih =>
    intro acc w hw
    simp only [splitWhitespaceAux] at hw
    split at hw
    · split at hw
      · have := ih [] w hw
        simp at this
        simp
        omega
      · simp at hw
        rcases hw with hw | hw
        · simp [hw]
        · have := ih [] w hw
          simp at this
          simp
          omega
    · have := ih (c :: acc) w hw
      simp at this ⊢
      omega

/-! ### Word-join facts -/

theorem processAux_results {cm : Charmaps} {dir : Direction} {fuel : Nat} :
    ∀ (ws rs : List (List Char)),
      ws.map (process_word cm dir fuel) = rs.map (fun r => some (.ok r)) →
      processAux cm dir fuel ws = some (.ok (rs.flatMap (fun r => r ++ [' ']))) := by
  intro ws
  induction ws with
  | nil =>
    intro rs h
    cases rs with
    | nil => simp [processAux]
    | cons r rs => simp at h
  | cons w ws ih =>
    intro rs h
    cases rs with
    | nil => simp at h
    | cons r rs =>
      simp only [List.map_cons, List.cons.injEq] at h
      obtain ⟨hw, hrest⟩ := h
      simp only [processAux, hw]
      rw [ih rs hrest]
      simp [Except.map]

theorem dropLast_flatMap_space (rs : List (List Char)) :
    (rs.flatMap (fun r => r ++ [' '])).dropLast = joinSpace rs := by
  induction rs with
  | nil => simp [joinSpace]
  | cons r rs ih =>
    cases rs with
    | nil => simp [joinSpace]
    | cons r2 rs2 =>
      have hne : ((r2 :: rs2).flatMap (fun r => r ++ [' '])) ≠ [] := by simp
      calc ((r :: r2 :: rs2).flatMap (fun r => r ++ [' '])).dropLast
          = ((r ++ [' ']) ++ (r2 :: rs2).flatMap (fun r => r ++ [' '])).dropLast := by simp
        _ = (r ++ [' ']) ++ ((r2 :: rs2).flatMap (fun r => r ++ [' '])).dropLast := by
              rw [List.dropLast_append_of_ne_nil _ hne]
        _ = (r ++ [' ']) ++ joinSpace (r2 :: rs2) := by rw [ih]
        _ = joinSpace (r :: r2 :: rs2) := by simp [joinSpace]

theorem process_results {cm : Charmaps} {dir : Direction} {fuel : Nat} {input : List Char}
    {rs : List (List Char)}
    (h : (splitWhitespace input).map (process_word cm dir fuel) =
      rs.map (fun r => some (.ok r))) :
    process cm dir fuel input = some (.ok (joinSpace rs)) := by
  unfold process
  rw [processAux_results (splitWhitespace input) rs h]
  simp [Except.map, dropLast_flatMap_space]

/-! ### Pass-through and termination facts -/

theorem getD_lt {w : List Char} {i : Nat} (h : i < w.length) : w.getD i ' ' = w[i] := by
  simp [List.getD_eq_getElem?_getD, List.getElem?_eq_getElem h]

theorem byteLen_cons (c : Char) (w : List Char) :
    byteLen (c :: w) = (charUtf8 c).length + byteLen w := by
  simp [byteLen]

theorem processWordAux_passthrough {cm : Charmaps} {dir : Direction} {w : List Char}
    (hw : ∀ i, i < w.length → findMatchRev (srcTable cm dir) (w.drop i) = none) :
    ∀ fuel cursor room, w.length - cursor ≤ fuel → byteLen (w.drop cursor) ≤ room →
      processWordAux cm dir w fuel cursor room = some (.ok ((w.drop cursor).flatMap charUtf8)) := by
  intro fuel
  induction fuel with
  | zero =>
    intro cursor room hfuel hroom
    simp only [processWordAux]
    rw [if_neg (by omega), List.drop_eq_nil_of_le (by omega)]
    simp
  | succ fuel ih =>
    intro cursor room hfuel hroom
    by_cases hcur : cursor < w.length
    · have hdrop : w.drop cursor = w[cursor] :: w.drop (cursor + 1) :=
        List.drop_eq_getElem_cons hcur
      have hbyte : byteLen (w.drop cursor) =
          (charUtf8 w[cursor]).length + byteLen (w.drop (cursor + 1)) := by
        rw [hdrop, byteLen_cons]
      have hone : byteLen [w[cursor]] = (charUtf8 w[cursor]).length := by simp [byteLen]
      have henc : chars_to_utf8 [w.getD cursor ' '] room = .ok ([w[cursor]].flatMap charUtf8) := by
        rw [getD_lt hcur]
        exact chars_to_utf8_fits [w[cursor]] room (by omega)
      have hflat : ([w[cursor]].flatMap charUtf8).length = (charUtf8 w[cursor]).length := by simp
      simp only [processWordAux]
      rw [if_pos hcur]
      simp only [hw cursor hcur, henc]
      rw [ih (cursor + 1) (room - ([w[cursor]].flatMap charUtf8).length)
        (by omega) (by rw [hflat]; omega)]
      simp [Except.map]
      rw [hdrop, List.flatMap_cons]
    · simp only [processWordAux]
      rw [if_neg hcur, List.drop_eq_nil_of_le (by omega)]
      simp

theorem process_word_passthrough {cm : Charmaps} {dir : Direction} {w : List Char}
    (hw : ∀ i, i < w.length → findMatchRev (srcTable cm dir) (w.drop i) = none)
    {fuel : Nat} (hfuel : w.length ≤ fuel) :
    process_word cm dir fuel w = some (.ok w) := by
  unfold process_word
  rw [processWordAux_passthrough hw fuel 0 (4 * byteLen w) (by omega)
    (by rw [List.drop_zero]; omega)]
  rw [List.drop_zero]
  simp [utf8Decode_encode w]

theorem digraphAltAux_ok_some {word character : List Char} {markers : List (List Nat)}
    {lats cyrs : List (List Char)} {ov : List Char}
    (h : digraphAltAux word character markers lats cyrs = .ok (some ov))
    (hlen : lats.length ≤ cyrs.length) : ov ∈ cyrs := by
  induction lats generalizing cyrs with
  | nil => simp [digraphAltAux] at h
  | cons lat lats ih =>
    simp only [digraphAltAux] at h
    have hlen2 : lats.length ≤ cyrs.tail.length := by
      simp at hlen ⊢
      omega
    split at h
    · cases hlb : lowercaseBuffer word with
      | error e2 => simp only [hlb] at h; simp at h
      | ok buf =>
        simp only [hlb] at h
        split at h
        · simp at h
          have hne : cyrs ≠ [] := by
            intro hnil
            rw [hnil] at hlen
            simp at hlen
          cases cyrs with
          | nil => exact absurd rfl hne
          | cons y ys => simp at h; simp [← h]
        · exact List.mem_of_mem_tail (ih h hlen2)
    · exact List.mem_of_mem_tail (ih h hlen2)

theorem digraph_exception_ok_some {excs : List DigraphException} {word character ov : List Char}
    (h : digraph_exception excs word character = .ok (some ov))
    (hX : ∀ exc ∈ excs, exc.latin.length ≤ exc.cyrillic.length ∧
      ∀ o ∈ exc.cyrillic, o ≠ []) : ov ≠ [] := by
  induction excs with
  | nil => simp [digraph_exception] at h
  | cons exc rest ih =>
    simp only [digraph_exception] at h
    cases halt : digraphAltAux word character exc.exceptions exc.latin exc.cyrillic with
    | error e2 => simp only [halt] at h; simp at h
    | ok r =>
      simp only [halt] at h
      cases r with
      | some ov2 =>
        simp at h
        have hmem := digraphAltAux_ok_some halt (hX exc (by simp)).1
        rw [h] at hmem
        exact (hX exc (by simp)).2 ov hmem
      | none => exact ih h (fun e he => hX e (by simp [he]))

theorem excDispatch_ok_some {cm : Charmaps} {dir : Direction} {word c ov : List Char}
    (h : excDispatch cm dir word c = .ok (some ov))
    (hX : ∀ exc ∈ cm.digraphExceptions, exc.latin.length ≤ exc.cyrillic.length ∧
      ∀ o ∈ exc.cyrillic, o ≠ []) : ov ≠ [] := by
  rcases dir with _ | _
  · exact digraph_exception_ok_some h hX
  · simp [excDispatch] at h

theorem processWordAux_isSome {cm : Charmaps} {dir : Direction} {w : List Char}
    (hE : ∀ e ∈ srcTable cm dir, e ≠ [])
    (hX : ∀ exc ∈ cm.digraphExceptions, exc.latin.length ≤ exc.cyrillic.length ∧
      ∀ o ∈ exc.cyrillic, o ≠ []) :
    ∀ fuel cursor room, w.length - cursor ≤ fuel →
      (processWordAux cm dir w fuel cursor room).isSome := by
  intro fuel
  induction fuel with
  | zero =>
    intro cursor room hfuel
    simp only [processWordAux]
    rw [if_neg (by omega)]
    simp
  | succ fuel ih =>
    intro cursor room hfuel
    by_cases hcur : cursor < w.length
    · simp only [processWordAux]
      rw [if_pos hcur]
      cases hfm : findMatchRev (srcTable cm dir) (w.drop cursor) with
      | none =>
        cases henc : chars_to_utf8 [w.getD cursor ' '] room with
        | error e2 => simp
        | ok bs =>
          have := ih (cursor + 1) (room - bs.length) (by omega)
          simpa using this
      | some p =>
        obtain ⟨i, c⟩ := p
        have hc : c ∈ srcTable cm dir := by
          have hiff := (findMatchRev_some_iff (srcTable cm dir) (w.drop cursor) i c).1 hfm
          have : (srcTable cm dir).getD i [] = (srcTable cm dir)[i] := by
            simp [List.getD_eq_getElem?_getD, List.getElem?_eq_getElem hiff.1]
          rw [this] at hiff
          rw [← hiff.2.1]
          exact List.getElem_mem hiff.1
        have hclen : 0 < c.length := List.length_pos.2 (hE c hc)
        cases hexc : excDispatch cm dir w c with
        | error e2 => simp only [hexc]; simp
        | ok oov =>
          cases oov with
          | some ov =>
            have hov : ov ≠ [] := excDispatch_ok_some hexc hX
            have hovlen : 0 < ov.length := List.length_pos.2 hov
            simp only [hexc]
            cases henc : chars_to_utf8 ov room with
            | error e2 => simp
            | ok bs =>
              have := ih (cursor + ov.length) (room - bs.length) (by omega)
              simpa using this
          | none =>
            simp only [hexc]
            cases henc : chars_to_utf8 ((tgtTable cm dir).getD i []) room with
            | error e2 => simp
            | ok bs =>
              have := ih (cursor + c.length) (room - bs.length) (by omega)
              simpa using this
    · simp only [processWordAux]
      rw [if_neg hcur]
      simp

theorem process_word_isSome {cm : Charmaps} {dir : Direction} {w : List Char}
    (hE : ∀ e ∈ srcTable cm dir, e ≠ [])
    (hX : ∀ exc ∈ cm.digraphExceptions, exc.latin.length ≤ exc.cyrillic.length ∧
      ∀ o ∈ exc.cyrillic, o ≠ [])
    {fuel : Nat} (hfuel : w.length ≤ fuel) : (process_word cm dir fuel w).isSome := by
  unfold process_word
  have := processWordAux_isSome (w := w) hE hX fuel 0 (4 * byteLen w) (by omega)
  cases haux : processWordAux cm dir w fuel 0 (4 * byteLen w) with
  | none => rw [haux] at this; simp at this
  | some r =>
    cases r with
    | error e => simp
    | ok bytes => simp

theorem process_isSome {cm : Charmaps} {dir : Direction} {input : List Char}
    (hE : ∀ e ∈ srcTable cm dir, e ≠ [])
    (hX : ∀ exc ∈ cm.digraphExceptions, exc.latin.length ≤ exc.cyrillic.length ∧
      ∀ o ∈ exc.cyrillic, o ≠ [])
    {fuel : Nat} (hfuel : input.length ≤ fuel) : (process cm dir fuel input).isSome := by
  unfold process
  suffices h : (processAux cm dir fuel (splitWhitespace input)).isSome by
    cases haux : processAux cm dir fuel (splitWhitespace input) with
    | none => rw [haux] at h; simp at h
    | some r => simp
  have hlen := splitWhitespace_length_le input
  generalize hws : splitWhitespace input = ws at hlen
  clear hws
  induction ws with
  | nil => simp [processAux]
  | cons w ws ih =>
    have hword := process_word_isSome (w := w) hE hX
      (le_trans (hlen w (by simp)) hfuel)
    simp only [processAux]
    cases hw : process_word cm dir fuel w with
    | none => rw [hw] at hword; simp at hword
    | some r =>
      cases r with
      | error e => simp
      | ok rw2 =>
        have := ih (fun x hx => hlen x (by simp [hx]))
        cases hrec : processAux cm dir fuel ws with
        | none => rw [hrec] at this; simp at this
        | some r2 => simp

/-! ### Byte-level scanning agrees with the character-level scan -/

theorem byteLen_append (a b : List Char) : byteLen (a ++ b) = byteLen a + byteLen b := by
  simp [byteLen]

theorem lowercaseBuffer_fits {word : List Char}
    (h : byteLen (word.flatMap toLower) ≤ word.length * 4) :
    lowercaseBuffer word = .ok (lowerBuf word) := by
  unfold lowercaseBuffer lowerBuf
  rw [chars_to_utf8_fits _ _ h]
  rfl

theorem digraphAltAux_char {word character : List Char} {markers : List (List Nat)}
    (hlow : byteLen (word.flatMap toLower) ≤ word.length * 4) :
    ∀ lats cyrs, digraphAltAux word character markers lats cyrs =
      .ok (digraphAltChar word character markers lats cyrs) := by
  intro lats
  induction lats with
  | nil => intro cyrs; rfl
  | cons lat lats ih =>
    intro cyrs
    simp only [digraphAltAux, digraphAltChar, lowercaseBuffer_fits hlow]
    by_cases hl : lat = character
    · rw [if_pos hl, if_pos hl]
      by_cases hm : (markers.any fun m => isSub m (lowerBuf word)) = true
      · rw [if_pos hm, if_pos hm]
      · rw [if_neg hm, if_neg hm]
        exact ih cyrs.tail
    · rw [if_neg hl, if_neg hl]
      exact ih cyrs.tail

theorem digraph_exception_char {excs : List DigraphException} {word character : List Char}
    (hlow : byteLen (word.flatMap toLower) ≤ word.length * 4) :
    digraph_exception excs word character = .ok (digraphExcChar excs word character) := by
  induction excs with
  | nil => rfl
  | cons exc rest ih =>
    simp only [digraph_exception, digraphExcChar]
    rw [digraphAltAux_char hlow exc.latin exc.cyrillic]
    cases digraphAltChar word character exc.exceptions exc.latin exc.cyrillic with
    | some ov => rfl
    | none => exact ih

theorem excDispatch_char {cm : Charmaps} {dir : Direction} {word c : List Char}
    (hlow : byteLen (word.flatMap toLower) ≤ word.length * 4) :
    excDispatch cm dir word c = .ok (excDispatchChar cm dir word c) := by
  rcases dir with _ | _
  · exact digraph_exception_char hlow
  · rfl

theorem findMatchRev_mem {entries : List (List Char)} {rest : List Char} {i : Nat}
    {c : List Char} (h : findMatchRev entries rest = some (i, c)) : c ∈ entries := by
  have hiff := (findMatchRev_some_iff entries rest i c).1 h
  have hg : entries.getD i [] = entries[i] := by
    simp [List.getD_eq_getElem?_getD, List.getElem?_eq_getElem hiff.1]
  rw [hg] at hiff
  rw [← hiff.2.1]
  exact List.getElem_mem hiff.1

theorem processWordAux_scan {cm : Charmaps} {dir : Direction} {w : List Char}
    (hE : ∀ e ∈ srcTable cm dir, e ≠ [])
    (hX : ∀ exc ∈ cm.digraphExceptions, exc.latin.length ≤ exc.cyrillic.length ∧
      ∀ o ∈ exc.cyrillic, o ≠ [])
    (hlow : byteLen (w.flatMap toLower) ≤ w.length * 4) :
    ∀ fuel cursor room, w.length - cursor ≤ fuel →
      byteLen (scanF cm dir w fuel cursor) ≤ room →
      processWordAux cm dir w fuel cursor room =
        some (.ok ((scanF cm dir w fuel cursor).flatMap charUtf8)) := by
  intro fuel
  induction fuel with
  | zero =>
    intro cursor room hfuel hroom
    simp only [processWordAux, scanF]
    rw [if_neg (by omega), if_neg (by omega)]
    simp
  | succ fuel ih =>
    intro cursor room hfuel hroom
    by_cases hcur : cursor < w.length
    · simp only [processWordAux, scanF] at hroom ⊢
      rw [if_pos hcur] at hroom
      rw [if_pos hcur, if_pos hcur]
      cases hfm : findMatchRev (srcTable cm dir) (w.drop cursor) with
      | none =>
        simp only [hfm] at hroom ⊢
        rw [byteLen_cons] at hroom
        have henc : chars_to_utf8 [w.getD cursor ' '] room =
            .ok ([w.getD cursor ' '].flatMap charUtf8) := by
          refine chars_to_utf8_fits _ _ ?_
          simp only [byteLen, List.flatMap_cons, List.flatMap_nil, List.append_nil,
            List.length_append] at hroom ⊢
          omega
        have hflat : ([w.getD cursor ' '].flatMap charUtf8).length =
            (charUtf8 (w.getD cursor ' ')).length := by simp
        simp only [henc]
        rw [ih (cursor + 1) (room - ([w.getD cursor ' '].flatMap charUtf8).length)
          (by omega) (by rw [hflat]; omega)]
        simp [Except.map]
      | some p =>
        obtain ⟨i, c⟩ := p
        simp only [hfm] at hroom ⊢
        have hde : excDispatch cm dir w c = .ok (excDispatchChar cm dir w c) :=
          excDispatch_char hlow
        simp only [hde]
        cases hec : excDispatchChar cm dir w c with
        | some ov =>
          simp only [hec] at hroom ⊢
          rw [byteLen_append] at hroom
          have hov : ov ≠ [] := excDispatch_ok_some (by rw [hde, hec]) hX
          have hovlen : 0 < ov.length := List.length_pos.2 hov
          have henc : chars_to_utf8 ov room = .ok (ov.flatMap charUtf8) :=
            chars_to_utf8_fits _ _ (by omega)
          have hflat : (ov.flatMap charUtf8).length = byteLen ov := rfl
          simp only [henc]
          rw [ih (cursor + ov.length) (room - (ov.flatMap charUtf8).length)
            (by omega) (by rw [hflat]; omega)]
          simp [Except.map]
        | none =>
          simp only [hec] at hroom ⊢
          rw [byteLen_append] at hroom
          have hc : c ∈ srcTable cm dir := findMatchRev_mem hfm
          have hclen : 0 < c.length := List.length_pos.2 (hE c hc)
          have henc : chars_to_utf8 ((tgtTable cm dir).getD i []) room =
              .ok (((tgtTable cm dir).getD i []).flatMap charUtf8) :=
            chars_to_utf8_fits _ _ (by omega)
          have hflat : (((tgtTable cm dir).getD i []).flatMap charUtf8).length =
              byteLen ((tgtTable cm dir).getD i []) := rfl
          simp only [henc]
          rw [ih (cursor + c.length) (room - (((tgtTable cm dir).getD i []).flatMap charUtf8).length)
            (by omega) (by rw [hflat]; omega)]
          simp [Except.map]
    · simp only [processWordAux, scanF]
      rw [if_neg hcur, if_neg hcur]
      simp

theorem process_word_scan {cm : Charmaps} {dir : Direction} {w : List Char}
    (hE : ∀ e ∈ srcTable cm dir, e ≠ [])
    (hX : ∀ exc ∈ cm.digraphExceptions, exc.latin.length ≤ exc.cyrillic.length ∧
      ∀ o ∈ exc.cyrillic, o ≠ [])
    (hlow : byteLen (w.flatMap toLower) ≤ w.length * 4)
    {fuel : Nat} (hfuel : w.length ≤ fuel)
    (hcap : byteLen (scanF cm dir w fuel 0) ≤ 4 * byteLen w) :
    process_word cm dir fuel w = some (.ok (scanF cm dir w fuel 0)) := by
  unfold process_word
  rw [processWordAux_scan hE hX hlow fuel 0 (4 * byteLen w) (by omega) hcap]
  simp [utf8Decode_encode]

/-! ### Round-trip machinery -/

theorem findMatchRevFrom_congr {entries : List (List Char)} {r1 r2 : List Char}
    (h : ∀ i, isPre (entries.getD i []) r1 = isPre (entries.getD i []) r2) :
    ∀ n, findMatchRevFrom entries r1 n = findMatchRevFrom entries r2 n := by
  intro n
  induction n with
  | zero => rfl
  | succ n ih =>
    simp only [findMatchRevFrom, h n, ih]

theorem isPre_singleton_cons {e : List Char} (he : e.length = 1) (c0 : Char)
    (rest : List Char) : isPre e (c0 :: rest) = isPre e [c0] := by
  obtain ⟨a, rfl⟩ := List.length_eq_one.1 he
  simp [isPre]

theorem findMatchRev_singleton {entries : List (List Char)}
    (hs : ∀ e ∈ entries, e.length = 1) (c0 : Char) (rest : List Char) :
    findMatchRev entries (c0 :: rest) = findMatchRev entries [c0] := by
  unfold findMatchRev
  refine findMatchRevFrom_congr (fun i => ?_) entries.length
  by_cases hi : i < entries.length
  · have hg : entries.getD i [] = entries[i] := by
      simp [List.getD_eq_getElem?_getD, List.getElem?_eq_getElem hi]
    rw [hg]
    exact isPre_singleton_cons (hs entries[i] (List.getElem_mem hi)) c0 rest
  · have hg : entries.getD i [] = [] := by
      have h2 : entries[i]? = none := List.getElem?_eq_none (Nat.le_of_not_lt hi)
      simp [List.getD_eq_getElem?_getD, h2]
    rw [hg]
    simp [isPre]

theorem scanF_charwise {cm : Charmaps} {w : List Char}
    (hs : ∀ e ∈ cm.cyrillicClean, e.length = 1) :
    ∀ fuel cursor, w.length - cursor ≤ fuel →
      scanF cm .CyrillicToLatin w fuel cursor = (w.drop cursor).flatMap (mapC cm) := by
  intro fuel
  induction fuel with
  | zero =>
    intro cursor hfuel
    simp only [scanF]
    rw [if_neg (by omega), List.drop_eq_nil_of_le (by omega)]
    simp
  | succ fuel ih =>
    intro cursor hfuel
    by_cases hcur : cursor < w.length
    · have hdrop : w.drop cursor = w[cursor] :: w.drop (cursor + 1) :=
        List.drop_eq_getElem_cons hcur
      have hsrc : srcTable cm .CyrillicToLatin = cm.cyrillicClean := rfl
      have hfm : findMatchRev cm.cyrillicClean (w.drop cursor) =
          findMatchRev cm.cyrillicClean [w[cursor]] := by
        rw [hdrop]
        exact findMatchRev_singleton hs w[cursor] (w.drop (cursor + 1))
      simp only [scanF]
      rw [if_pos hcur]
      simp only [hsrc, hfm]
      cases hm : findMatchRev cm.cyrillicClean [w[cursor]] with
      | none =>
        rw [getD_lt hcur, ih (cursor + 1) (by omega), hdrop, List.flatMap_cons]
        have hmap : mapC cm w[cursor] = [w[cursor]] := by
          unfold mapC
          rw [hm]
        rw [hmap]
        rfl
      | some p =>
        obtain ⟨i, c⟩ := p
        have hc1 : c.length = 1 := hs c (findMatchRev_mem hm)
        have hmap : mapC cm w[cursor] = cm.latinClean.getD i [] := by
          unfold mapC
          rw [hm]
        simp only [excDispatchChar]
        rw [hc1, ih (cursor + 1) (by omega), hdrop, List.flatMap_cons, hmap]
        rfl
    · simp only [scanF]
      rw [if_neg hcur, List.drop_eq_nil_of_le (by omega)]
      simp

theorem roundSafeF_scan {cm : Charmaps} {w : List Char} :
    ∀ fuel cursor, roundSafeF cm w fuel cursor = true →
      (scanF cm .LatinToCyrillic w fuel cursor).flatMap (mapC cm) = w.drop cursor := by
  intro fuel
  induction fuel with
  | zero =>
    intro cursor hsafe
    simp only [roundSafeF] at hsafe
    by_cases hcur : cursor < w.length
    · rw [if_pos hcur] at hsafe; simp at hsafe
    · simp only [scanF]
      rw [if_neg hcur, List.drop_eq_nil_of_le (by omega)]
      simp
  | succ fuel ih =>
    intro cursor hsafe
    by_cases hcur : cursor < w.length
    · simp only [roundSafeF] at hsafe
      rw [if_pos hcur] at hsafe
      simp only [scanF]
      rw [if_pos hcur]
      cases hfm : findMatchRev (srcTable cm .LatinToCyrillic) (w.drop cursor) with
      | none =>
        simp only [hfm] at hsafe ⊢
        rw [Bool.and_eq_true] at hsafe
        obtain ⟨hcond, hrest⟩ := hsafe
        rw [List.flatMap_cons, ih (cursor + 1) hrest]
        have hcond2 : mapC cm (w.getD cursor ' ') = [w.getD cursor ' '] := by
          simpa using hcond
        rw [hcond2, getD_lt hcur]
        rw [List.drop_eq_getElem_cons hcur]
        rfl
      | some p =>
        obtain ⟨i, c⟩ := p
        simp only [hfm] at hsafe ⊢
        cases hec : excDispatchChar cm .LatinToCyrillic w c with
        | some ov =>
          simp only [hec] at hsafe ⊢
          rw [Bool.and_eq_true] at hsafe
          obtain ⟨hcond, hrest⟩ := hsafe
          rw [List.flatMap_append, ih (cursor + ov.length) hrest]
          have hcond2 : ov.flatMap (mapC cm) = (w.drop cursor).take ov.length := by
            simpa using hcond
          have hdd : w.drop (cursor + ov.length) = (w.drop cursor).drop ov.length := by
            rw [List.drop_drop, Nat.add_comm]
          rw [hcond2, hdd, List.take_append_drop]
        | none =>
          simp only [hec] at hsafe ⊢
          rw [Bool.and_eq_true] at hsafe
          obtain ⟨hcond, hrest⟩ := hsafe
          rw [List.flatMap_append, ih (cursor + c.length) hrest]
          have hcond2 : ((tgtTable cm .LatinToCyrillic).getD i []).flatMap (mapC cm) = c := by
            simpa using hcond
          have hpre : isPre c (w.drop cursor) = true :=
            ((findMatchRev_some_iff _ _ i c).1 hfm).2.2.1
          have htake : (w.drop cursor).take c.length = c := (isPre_iff_take c _).1 hpre
          have hdd : w.drop (cursor + c.length) = (w.drop cursor).drop c.length := by
            rw [List.drop_drop, Nat.add_comm]
          rw [hcond2, hdd]
          calc c ++ (w.drop cursor).drop c.length
              = (w.drop cursor).take c.length ++ (w.drop cursor).drop c.length := by rw [htake]
            _ = w.drop cursor := List.take_append_drop _ _
    · simp only [scanF]
      rw [if_neg hcur, List.drop_eq_nil_of_le (by omega)]
      simp

/-! ### First-match order of the exception dictionary -/

theorem charUtf8_length_le (c : Char) : (charUtf8 c).length ≤ 4 := by
  unfold charUtf8
  split
  · simp
  split
  · simp
  split <;> simp

theorem toLower_length (c : Char) : (toLower c).length = 1 := by
  unfold toLower
  split
  · simp
  split
  · simp
  split
  · simp
  split <;> simp

theorem toLower_fits (w : List Char) : byteLen (w.flatMap toLower) ≤ w.length * 4 := by
  induction w with
  | nil => simp [byteLen]
  | cons c cs ih =>
    have h1 : byteLen ((c :: cs).flatMap toLower) =
        byteLen (toLower c) + byteLen (cs.flatMap toLower) := by
      simp [byteLen]
    have h2 : byteLen (toLower c) ≤ 4 := by
      obtain ⟨a, ha⟩ := List.length_eq_one.1 (toLower_length c)
      rw [ha]
      have := charUtf8_length_le a
      simp [byteLen]
      omega
    rw [h1]
    simp only [List.length_cons]
    omega

/-- `cyrillic[i]` for the header position: `headD` of the walked tail. -/
theorem headD_getD (cyrs : List (List Char)) : cyrs.headD [] = cyrs.getD 0 [] := by
  cases cyrs <;> rfl

theorem digraphAltChar_first {word character : List Char} {markers : List (List Nat)} :
    ∀ (lats cyrs : List (List Char)) (i : Nat), i < lats.length →
      lats.getD i [] = character →
      (markers.any fun m => isSub m (lowerBuf word)) = true →
      (∀ j, j < i → lats.getD j [] ≠ character) →
      digraphAltChar word character markers lats cyrs = some (cyrs.getD i []) := by
  intro lats
  induction lats with
  | nil => intro cyrs i hi; simp at hi
  | cons lat lats ih =>
    intro cyrs i hi hlat hmark hfirst
    cases i with
    | zero =>
      simp only [List.getD_cons_zero] at hlat
      simp only [digraphAltChar, if_pos hlat, if_pos hmark]
      rw [headD_getD]
    | succ i =>
      have hne : lat ≠ character := by
        have := hfirst 0 (Nat.succ_pos i)
        simpa using this
      simp only [digraphAltChar, if_neg hne]
      have hrec := ih cyrs.tail i (by simpa using hi) (by simpa using hlat) hmark
        (fun j hj => by
          have := hfirst (j + 1) (by omega)
          simpa using this)
      rw [hrec]
      cases cyrs <;> rfl

theorem digraphAltChar_none {word character : List Char} {markers : List (List Nat)} :
    ∀ (lats cyrs : List (List Char)),
      ((∀ j, j < lats.length → lats.getD j [] ≠ character) ∨
        (markers.any fun m => isSub m (lowerBuf word)) = false) →
      digraphAltChar word character markers lats cyrs = none := by
  intro lats
  induction lats with
  | nil => intro cyrs h; rfl
  | cons lat lats ih =>
    intro cyrs h
    rcases h with h | h
    · have hne : lat ≠ character := by
        have := h 0 (Nat.succ_pos lats.length)
        simpa using this
      simp only [digraphAltChar, if_neg hne]
      exact ih cyrs.tail (Or.inl (fun j hj => by
        have := h (j + 1) (by simpa using hj)
        simpa using this))
    · by_cases hl : lat = character
      · simp only [digraphAltChar, if_pos hl, h]
        exact ih cyrs.tail (Or.inr h)
      · simp only [digraphAltChar, if_neg hl]
        exact ih cyrs.tail (Or.inr h)

theorem digraphAltChar_not_applies {word character : List Char} {exc : DigraphException}
    (h : ¬ entryApplies word character exc) :
    digraphAltChar word character exc.exceptions exc.latin exc.cyrillic = none := by
  by_cases hm : (exc.exceptions.any fun m => isSub m (lowerBuf word)) = true
  · refine digraphAltChar_none exc.latin exc.cyrillic (Or.inl (fun j hj hcontra => ?_))
    exact h ⟨⟨j, hj, hcontra⟩, hm⟩
  · exact digraphAltChar_none exc.latin exc.cyrillic (Or.inr (by simpa using hm))

theorem digraphExcChar_first {word character : List Char} :
    ∀ (excs : List DigraphException) (k i : Nat), k < excs.length →
      i < (excs.getD k ⟨[], [], []⟩).latin.length →
      (excs.getD k ⟨[], [], []⟩).latin.getD i [] = character →
      ((excs.getD k ⟨[], [], []⟩).exceptions.any fun m => isSub m (lowerBuf word)) = true →
      (∀ k2, k2 < k → ¬ entryApplies word character (excs.getD k2 ⟨[], [], []⟩)) →
      (∀ j, j < i → (excs.getD k ⟨[], [], []⟩).latin.getD j [] ≠ character) →
      digraphExcChar excs word character =
        some ((excs.getD k ⟨[], [], []⟩).cyrillic.getD i []) := by
  intro excs
  induction excs with
  | nil => intro k i hk; simp at hk
  | cons exc rest ih =>
    intro k i hk hi hlat hmark hkfirst hifirst
    cases k with
    | zero =>
      simp only [List.getD_cons_zero] at hi hlat hmark hifirst ⊢
      simp only [digraphExcChar]
      rw [digraphAltChar_first exc.latin exc.cyrillic i hi hlat hmark hifirst]
    | succ k =>
      have h0 : ¬ entryApplies word character exc := by
        have := hkfirst 0 (Nat.succ_pos k)
        simpa using this
      simp only [digraphExcChar]
      rw [digraphAltChar_not_applies h0]
      have hrec := ih k i (by simpa using hk) (by simpa using hi) (by simpa using hlat)
        (by simpa using hmark)
        (fun k2 hk2 => by
          have := hkfirst (k2 + 1) (by omega)
          simpa using this)
        (by simpa using hifirst)
      simpa using hrec

/-! ### Facts about the modelled tables -/

theorem cmSerbian_hE_l2c : ∀ e ∈ srcTable cmSerbian .LatinToCyrillic, e ≠ [] := by decide

theorem cmSerbian_hE_c2l : ∀ e ∈ srcTable cmSerbian .CyrillicToLatin, e ≠ [] := by decide

theorem cmSerbian_hX : ∀ exc ∈ cmSerbian.digraphExceptions,
    exc.latin.length ≤ exc.cyrillic.length ∧ ∀ o ∈ exc.cyrillic, o ≠ [] := by decide

theorem cmSerbian_cyrClean_len : ∀ e ∈ cmSerbian.cyrillicClean, e.length = 1 := by decide

/-! ### Claims -/

/-- C1, counterexample.  The claim states that on an exception override the
scanner advances the input cursor by the matched source length, *not* by
the override's length.  The source advances by the override's length
(`cursor_in += exception.len()` on line 120): with a one-character match
and a two-character override in `cmOverride`, scanning the word `ad` emits
the override `bc` and then skips the character `d` entirely, while the
spec-worded variant `process_word_srcAdvance` (advance by source length)
would keep it and produce `bcd`.  The two observable outputs differ, so
the claim as stated is false of the code. -/
theorem c1_counterexample :
    process_word cmOverride .LatinToCyrillic 2 ['a', 'd'] = some (.ok ['b', 'c']) ∧
    process_word_srcAdvance cmOverride .LatinToCyrillic 2 ['a', 'd'] =
      some (.ok ['b', 'c', 'd']) ∧
    (['b', 'c'] : List Char) ≠ ['b', 'c', 'd'] :=
  ⟨rfl, rfl, by decide⟩

/-- C1, amended.  When the disambiguator returns an override for a matched
source sequence, the scanner emits the override and advances the input
cursor by exactly the length of the *override* sequence (which coincides
with the matched source length whenever the table keeps the two lengths
equal, as the shipped Serbian data does). -/
theorem c1_amended (cm : Charmaps) (chars : List Char) (fuel cursorIn room i : Nat)
    (c ov : List Char) (bs : List Nat)
    (hcur : cursorIn < chars.length)
    (hfm : findMatchRev (srcTable cm .LatinToCyrillic) (chars.drop cursorIn) = some (i, c))
    (hexc : digraph_exception cm.digraphExceptions chars c = .ok (some ov))
    (henc : chars_to_utf8 ov room = .ok bs) :
    processWordAux cm .LatinToCyrillic chars (fuel + 1) cursorIn room =
      (processWordAux cm .LatinToCyrillic chars fuel
        (cursorIn + ov.length) (room - bs.length)).map
        (Except.map (fun tl => bs ++ tl)) := by
  have hdis : excDispatch cm .LatinToCyrillic chars c = .ok (some ov) := hexc
  simp only [processWordAux]
  rw [if_pos hcur]
  simp only [hfm, hdis, henc]

/-- C1, witness for the amended theorem at the synthetic table: one scan
step on `ad` emits the bytes of `bc` and moves the cursor from 0 to 2. -/
theorem c1_amended_witness :
    processWordAux cmOverride .LatinToCyrillic ['a', 'd'] 2 0 8 =
      (processWordAux cmOverride .LatinToCyrillic ['a', 'd'] 1 2 6).map
        (Except.map (fun tl => [98, 99] ++ tl)) :=
  c1_amended cmOverride ['a', 'd'] 1 0 8 0 ['a'] ['b', 'c'] [98, 99]
    (by decide) rfl rfl rfl

/-- C2.  The reverse-registration-order candidate search: a returned pair
is exactly the *last*-registered entry whose source sequence is a prefix of
the remaining characters (every later-registered entry fails to match);
`none` is returned exactly when no entry matches; and no entry registered
after a matching entry can be skipped — the selected index is at least the
index of every matching entry, so a digraph registered after a shorter
prefix entry is always preferred to it. -/
theorem c2_reverse_order_selection (entries : List (List Char)) (rest : List Char) :
    (∀ i c, findMatchRev entries rest = some (i, c) ↔
      (i < entries.length ∧ entries.getD i [] = c ∧ isPre c rest = true ∧
        ∀ j, i < j → j < entries.length → isPre (entries.getD j []) rest = false)) ∧
    (findMatchRev entries rest = none ↔
      ∀ j, j < entries.length → isPre (entries.getD j []) rest = false) ∧
    (∀ i c jlong, findMatchRev entries rest = some (i, c) → jlong < entries.length →
      isPre (entries.getD jlong []) rest = true → jlong ≤ i) := by
  refine ⟨findMatchRev_some_iff entries rest, findMatchRev_none_iff entries rest, ?_⟩
  intro i c jlong hfm hlen hpre
  by_contra hgt
  push_neg at hgt
  have := ((findMatchRev_some_iff entries rest i c).1 hfm).2.2.2 jlong hgt hlen
  rw [hpre] at this
  cases this

/-- C3.  When the pair (entry `k`, alternative `i`) is the first pair in
declaration order whose alternative equals the matched sequence and whose
entry has a marker occurring in the lowercased word (no earlier entry
applies at all, no earlier alternative of entry `k` equals the sequence),
the disambiguator returns that alternative's override. -/
theorem c3_first_alternative (excs : List DigraphException) (word character : List Char)
    (k i : Nat)
    (hk : k < excs.length)
    (hi : i < (excs.getD k ⟨[], [], []⟩).latin.length)
    (hlat : (excs.getD k ⟨[], [], []⟩).latin.getD i [] = character)
    (hmark : ((excs.getD k ⟨[], [], []⟩).exceptions.any fun m => isSub m (lowerBuf word)) = true)
    (hkfirst : ∀ k2, k2 < k → ¬ entryApplies word character (excs.getD k2 ⟨[], [], []⟩))
    (hifirst : ∀ j, j < i → (excs.getD k ⟨[], [], []⟩).latin.getD j [] ≠ character) :
    digraph_exception excs word character =
      .ok (some ((excs.getD k ⟨[], [], []⟩).cyrillic.getD i [])) := by
  rw [digraph_exception_char (toLower_fits word)]
  rw [digraphExcChar_first excs k i hk hi hlat hmark hkfirst hifirst]

/-- C3, witness: in `excsOrder` both entry 0 (alternative 1) and entry 1
apply to the matched sequence `a` in the word `a`; the first pair in
declaration order — entry 0, alternative 1 — governs, so the result is its
override `Q`, not entry 1's `R`. -/
theorem c3_witness :
    digraph_exception excsOrder ['a'] ['a'] = .ok (some ['Q']) ∧
    entryApplies ['a'] ['a'] (excsOrder.getD 1 ⟨[], [], []⟩) :=
  ⟨c3_first_alternative excsOrder ['a'] ['a'] 0 1 (by decide) (by decide) (by decide)
      (by decide) (fun k2 hk2 => absurd hk2 (by omega)) (by decide),
    ⟨⟨0, by decide, by decide⟩, by decide⟩⟩

/-- C4.  The processing operation equals the per-word results joined by
single spaces, and the empty input yields the empty output with no error. -/
theorem c4_word_join (cm : Charmaps) (dir : Direction) (fuel : Nat) (input : List Char)
    (rs : List (List Char))
    (h : (splitWhitespace input).map (process_word cm dir fuel) =
      rs.map (fun r => some (.ok r))) :
    process cm dir fuel input = some (.ok (joinSpace rs)) ∧
    process cm dir fuel [] = some (.ok []) :=
  ⟨process_results h, rfl⟩

/-- C4, witness: the two-word sentence `a b` transliterates to the two
individually transliterated words joined by one space, and `""` maps to
`""`. -/
theorem c4_witness :
    process cmSerbian .LatinToCyrillic 3 ['a', ' ', 'b'] = some (.ok ['а', ' ', 'б']) ∧
    process cmSerbian .LatinToCyrillic 3 [] = some (.ok []) :=
  c4_word_join cmSerbian .LatinToCyrillic 3 ['a', ' ', 'b'] [['а'], ['б']] rfl

/-- C5.  Leading and trailing whitespace runs are stripped by the word
splitter, and a sentence consisting of two words separated by an arbitrary
non-empty whitespace run (with arbitrary leading and trailing whitespace)
processes to the two word results separated by exactly one space. -/
theorem c5_whitespace_normalization (cm : Charmaps) (dir : Direction) (fuel : Nat)
    (s u w1 w2 t r1 r2 : List Char)
    (hs : ∀ c ∈ s, rustIsWhitespace c = true)
    (hu : ∀ c ∈ u, rustIsWhitespace c = true) (hu0 : u ≠ [])
    (hw1 : w1 ≠ []) (hw1c : ∀ c ∈ w1, rustIsWhitespace c = false)
    (hw2 : w2 ≠ []) (hw2c : ∀ c ∈ w2, rustIsWhitespace c = false)
    (h1 : process_word cm dir fuel w1 = some (.ok r1))
    (h2 : process_word cm dir fuel w2 = some (.ok r2)) :
    splitWhitespace (s ++ t) = splitWhitespace t ∧
    splitWhitespace (t ++ s) = splitWhitespace t ∧
    process cm dir fuel (s ++ (w1 ++ (u ++ (w2 ++ s)))) = some (.ok (r1 ++ ' ' :: r2)) := by
  refine ⟨splitWhitespaceAux_ws_drop hs t, splitWhitespaceAux_trailing hs t [], ?_⟩
  have hsplit : splitWhitespace (s ++ (w1 ++ (u ++ (w2 ++ s)))) = [w1, w2] := by
    unfold splitWhitespace
    rw [splitWhitespaceAux_ws_drop hs]
    rw [splitWhitespaceAux_word hw1c]
    rw [splitWhitespaceAux_sep hu hu0]
    rw [splitWhitespaceAux_trailing hs]
    rw [if_neg (by simpa using hw1)]
    have hlast : splitWhitespaceAux w2 [] = [w2] := splitWhitespace_single_word hw2 hw2c
    rw [hlast]
    simp
  have hjoin := @process_results cm dir fuel (s ++ (w1 ++ (u ++ (w2 ++ s)))) [r1, r2]
    (by rw [hsplit]; simp [h1, h2])
  simpa [joinSpace] using hjoin

/-- C5, witness: `" a␉b "` (space, `a`, tab, `b`, space) processes to
`а б` — one space, no leading or trailing whitespace — and the split
equalities hold at those instances. -/
theorem c5_witness :
    splitWhitespace ([' '] ++ ['x']) = splitWhitespace ['x'] ∧
    splitWhitespace (['x'] ++ [' ']) = splitWhitespace ['x'] ∧
    process cmSerbian .LatinToCyrillic 2
      ([' '] ++ (['a'] ++ (['\t'] ++ (['b'] ++ [' '])))) = some (.ok (['а'] ++ ' ' :: ['б'])) :=
  c5_whitespace_normalization cmSerbian .LatinToCyrillic 2
    [' '] ['\t'] ['a'] ['b'] ['x'] ['а'] ['б']
    (by decide) (by decide) (by decide) (by decide) (by decide) (by decide) (by decide)
    rfl rfl

/-- C6.  At a word position where no table entry's source sequence is a
prefix of the remaining characters, one scan step emits exactly the single
input character at the cursor (UTF-8 encoded) and advances the cursor by
one; consequently a word at none of whose positions any entry matches is
returned unchanged. -/
theorem c6_passthrough (cm : Charmaps) (dir : Direction) (w : List Char)
    (fuel cursor room : Nat)
    (hw : ∀ e ∈ srcTable cm dir, ∀ i, i < w.length → isPre e (w.drop i) = false)
    (hfuel : w.length ≤ fuel) (hcur : cursor < w.length)
    (hroom : (charUtf8 (w.getD cursor ' ')).length ≤ room) :
    processWordAux cm dir w (fuel + 1) cursor room =
      (processWordAux cm dir w fuel (cursor + 1)
        (room - (charUtf8 (w.getD cursor ' ')).length)).map
        (Except.map (fun tl => charUtf8 (w.getD cursor ' ') ++ tl)) ∧
    process_word cm dir fuel w = some (.ok w) := by
  have hnone : ∀ i, i < w.length → findMatchRev (srcTable cm dir) (w.drop i) = none := by
    intro i hil
    refine (findMatchRev_none_iff _ _).2 (fun j hj => ?_)
    have hg : (srcTable cm dir).getD j [] = (srcTable cm dir)[j] := by
      simp [List.getD_eq_getElem?_getD, List.getElem?_eq_getElem hj]
    rw [hg]
    exact hw (srcTable cm dir)[j] (List.getElem_mem hj) i hil
  constructor
  · have henc : chars_to_utf8 [w.getD cursor ' '] room =
        .ok ([w.getD cursor ' '].flatMap charUtf8) := by
      refine chars_to_utf8_fits _ _ ?_
      have : byteLen [w.getD cursor ' '] = (charUtf8 (w.getD cursor ' ')).length := by
        simp [byteLen]
      omega
    simp only [processWordAux]
    rw [if_pos hcur]
    simp only [hnone cursor hcur, henc]
    simp
  · exact process_word_passthrough hnone hfuel

/-- C6, witness: the digit string is returned unchanged by both
directions over the modelled Serbian tables. -/
theorem c6_witness :
    process_word cmSerbian .LatinToCyrillic 10 ['1', '2', '3', '4', '5', '6', '7', '8', '9', '0'] =
      some (.ok ['1', '2', '3', '4', '5', '6', '7', '8', '9', '0']) ∧
    process_word cmSerbian .CyrillicToLatin 10 ['1', '2', '3', '4', '5', '6', '7', '8', '9', '0'] =
      some (.ok ['1', '2', '3', '4', '5', '6', '7', '8', '9', '0']) :=
  ⟨(c6_passthrough cmSerbian .LatinToCyrillic
      ['1', '2', '3', '4', '5', '6', '7', '8', '9', '0'] 10 0 40
      (by decide) (by decide) (by decide) (by decide)).2,
   (c6_passthrough cmSerbian .CyrillicToLatin
      ['1', '2', '3', '4', '5', '6', '7', '8', '9', '0'] 10 0 40
      (by decide) (by decide) (by decide) (by decide)).2⟩

/-- C7, counterexample.  `нј` is composed solely of canonical Cyrillic
letters (both are entries of the canonical table), yet
Cyrillic→Latin gives `nj`, and Latin→Cyrillic maps `nj` to the single
letter `њ` ≠ `нј`: the two directions are not mutually inverse on all
canonical-character text, only on text free of cross-letter digraph
ambiguity. -/
theorem c7_counterexample :
    (['н'] ∈ cmSerbian.cyrillicClean ∧ ['ј'] ∈ cmSerbian.cyrillicClean) ∧
    process_word cmSerbian .CyrillicToLatin 2 ['н', 'ј'] = some (.ok ['n', 'j']) ∧
    process_word cmSerbian .LatinToCyrillic 2 ['n', 'j'] = some (.ok ['њ']) ∧
    (['њ'] : List Char) ≠ ['н', 'ј'] :=
  ⟨⟨by decide, by decide⟩, rfl, rfl, by decide⟩

/-- C7, amended.  Round trip holds for every input whose Latin→Cyrillic
scan is *canonical* (`roundSafeF`: each consumed chunk is reproduced by
reading its emitted output back through the Cyrillic→Latin character map)
and whose output fits the 4-bytes-per-input-byte buffers: Latin→Cyrillic
followed by Cyrillic→Latin reproduces the input exactly. -/
theorem c7_roundtrip_amended (w : List Char)
    (hsafe : roundSafeF cmSerbian w w.length 0 = true)
    (hcap1 : byteLen (scanF cmSerbian .LatinToCyrillic w w.length 0) ≤ 4 * byteLen w)
    (hcap2 : byteLen w ≤ 4 * byteLen (scanF cmSerbian .LatinToCyrillic w w.length 0)) :
    process_word cmSerbian .LatinToCyrillic w.length w =
      some (.ok (scanF cmSerbian .LatinToCyrillic w w.length 0)) ∧
    process_word cmSerbian .CyrillicToLatin
        (scanF cmSerbian .LatinToCyrillic w w.length 0).length
        (scanF cmSerbian .LatinToCyrillic w w.length 0) = some (.ok w) := by
  have hmid : (scanF cmSerbian .LatinToCyrillic w w.length 0).flatMap (mapC cmSerbian) = w := by
    have := @roundSafeF_scan cmSerbian w w.length 0 hsafe
    simpa using this
  have hcw : scanF cmSerbian .CyrillicToLatin (scanF cmSerbian .LatinToCyrillic w w.length 0)
      (scanF cmSerbian .LatinToCyrillic w w.length 0).length 0 =
      (scanF cmSerbian .LatinToCyrillic w w.length 0).flatMap (mapC cmSerbian) := by
    rw [scanF_charwise cmSerbian_cyrClean_len _ 0 (by omega)]
    simp
  constructor
  · exact process_word_scan cmSerbian_hE_l2c cmSerbian_hX (toLower_fits w)
      (Nat.le_refl _) hcap1
  · have hcap2b : byteLen (scanF cmSerbian .CyrillicToLatin
        (scanF cmSerbian .LatinToCyrillic w w.length 0)
        (scanF cmSerbian .LatinToCyrillic w w.length 0).length 0) ≤
        4 * byteLen (scanF cmSerbian .LatinToCyrillic w w.length 0) := by
      rw [hcw, hmid]
      exact hcap2
    have h2 := process_word_scan cmSerbian_hE_c2l cmSerbian_hX
      (toLower_fits (scanF cmSerbian .LatinToCyrillic w w.length 0))
      (Nat.le_refl _) hcap2b
    rw [h2, hcw, hmid]

/-- C7, witness for the amended theorem: `Lje` → `Ље` → `Lje`. -/
theorem c7_witness :
    process_word cmSerbian .LatinToCyrillic 3 ['L', 'j', 'e'] = some (.ok ['Љ', 'е']) ∧
    process_word cmSerbian .CyrillicToLatin 2 ['Љ', 'е'] = some (.ok ['L', 'j', 'e']) :=
  c7_roundtrip_amended ['L', 'j', 'e'] (by decide) (by decide) (by decide)

/-- C8.  With every source sequence and every override non-empty, every
scan step strictly advances the cursor, so fuel equal to the input length
always suffices: the processing operation terminates (returns a value,
successful or not) on every input. -/
theorem c8_termination (cm : Charmaps) (dir : Direction) (input : List Char) (fuel : Nat)
    (hE : ∀ e ∈ srcTable cm dir, e ≠ [])
    (hX : ∀ exc ∈ cm.digraphExceptions, exc.latin.length ≤ exc.cyrillic.length ∧
      ∀ o ∈ exc.cyrillic, o ≠ [])
    (hfuel : input.length ≤ fuel) :
    (process cm dir fuel input).isSome = true :=
  process_isSome hE hX hfuel

/-- C8, witness at the modelled Serbian tables. -/
theorem c8_witness : (process cmSerbian .LatinToCyrillic 3 ['L', 'j', 'e']).isSome = true :=
  c8_termination cmSerbian .LatinToCyrillic ['L', 'j', 'e'] 3
    cmSerbian_hE_l2c cmSerbian_hX (by decide)

/-- C9.  The processing operation never returns the reserved error
variants: neither `EmptyDigest` nor `IoError` is reachable from the
scanning algorithm, with any tables, direction, fuel and input. -/
theorem c9_reserved_errors_unreachable (cm : Charmaps) (dir : Direction) (fuel : Nat)
    (input : List Char) :
    process cm dir fuel input ≠ some (.error .EmptyDigest) ∧
    process cm dir fuel input ≠ some (.error .IoError) := by
  constructor <;> intro h <;> rcases process_error h with h2 | h2 <;> simp at h2

/-- C10.  The word processor never returns the invalid-UTF-8
reconstruction error: the output buffer always holds a concatenation of
whole-character UTF-8 encodings truncated exactly at the written length,
so the final string conversion always succeeds. -/
theorem c10_from_utf8_never_fails (cm : Charmaps) (dir : Direction) (fuel : Nat)
    (word : List Char) :
    process_word cm dir fuel word ≠ some (.error .FromUTFError) :=
  process_word_no_utf_error cm dir fuel word

end Translit
